import Mathlib

/-!
Verification of the odbrs demand-responsive bus simulation.

This file shallowly embeds the parts of the Rust sources that the checked
properties are about: the Dijkstra router (src/graph/route_finding.rs), the
dynamic controller's bus agent and LNS phases
(src/simulation/dyn_controller/bus.rs, mod.rs), the waypoint dependency
forest (src/simulation/dyn_controller/waypoints.rs), the demand generator's
request handler (src/simulation/demand/mod.rs), and the static controller
(src/simulation/static_controller/mod.rs, routes.rs).

Modelling conventions:
- Rust u128/u32/usize ids and counters become Nat; u8 tick counters wrap
  modulo 256 where the source increments them without a guard.
- HashMap/HashSet become association lists / duplicate-free lists; their
  unspecified iteration order is exposed by quantifying theorems over list
  permutations.
- f64 coordinates become integer coordinates; every comparison the sources
  make on them (squared euclidean distances, length casts to u32) is exact
  on integers, so no floating-point rounding is modelled.
- Rust panics (unwrap/expect on None, out-of-range drain) become Option
  results (`none` = panic).
- Randomness (rand::thread_rng) and wall-clock values (Utc::now) become
  explicit oracle parameters.
-/

namespace Odbrs

/-! Association list helpers, modelling HashMap lookup/insert. -/

def alookup {κ α : Type} [DecidableEq κ] : List (κ × α) → κ → Option α
  | [], _ => none
  | (k, v) :: rest, key => if k = key then some v else alookup rest key

/-- Replace the value at an existing key (models mutation through get_mut,
and entry().and_modify().or_insert() when the key is present). Appends when
the key is absent (the or_insert case). -/
def aset {κ α : Type} [DecidableEq κ] : List (κ × α) → κ → α → List (κ × α)
  | [], key, v => [(key, v)]
  | (k, w) :: rest, key, v =>
      if k = key then (k, v) :: rest else (k, w) :: aset rest key v

/-- Remove a key, returning its value and the remaining entries
(models HashMap::remove). -/
def aremove {κ α : Type} [DecidableEq κ] : List (κ × α) → κ → Option (α × List (κ × α))
  | [], _ => none
  | (k, v) :: rest, key =>
      if k = key then some (v, rest)
      else match aremove rest key with
        | some (w, rest') => some (w, (k, v) :: rest')
        | none => none

/-! Demand generator request handler, src/simulation/demand/mod.rs 85-121.

The generator thread receives Yield(amount, time), computes
diff = amount.saturating_sub(buffer.len()), drains the entire buffer when
diff == 0, appends diff freshly generated samples, and then moves
buffer.drain(0..amount) into the shared queue.  `gen` is the oracle for
`generate_amount` (random weighted image sampling, off-model); VecDeque::drain
with an out-of-range end panics, which is the `none` result. -/

def yieldStep {α : Type} (gen : Nat → List α) (amount : Nat) (buffer : List α) :
    Option (List α × List α) :=
  let diff := amount - buffer.length
  let buffer1 := if diff = 0 then [] else buffer
  let buffer2 := buffer1 ++ gen diff
  if amount ≤ buffer2.length then some (buffer2.take amount, buffer2.drop amount) else none

/-! Passenger and bus agent model, src/simulation/dyn_controller/bus.rs. -/

/-- Status of a dynamic-mode passenger (bus.rs 33-41). Tick payloads are the
source's u8 counters; the OnBus payload stands for the boarding timestamp. -/
inductive Status where
  | Generated : Status
  | TravelStart : Nat → Status
  | Waiting : Nat → Status
  | OnBus : Nat → Status
  | TavelDest : Nat → Status
  | Expired : Status
deriving DecidableEq, Repr

structure Passenger where
  id : Nat
  source_pos : Int × Int
  source_node : Nat
  dest_pos : Int × Int
  dest_node : Nat
  timeframe : Nat
  status : Status
deriving DecidableEq, Repr

/-- Passenger::update (bus.rs 75-103), with the analytics sends dropped (they
do not change passenger state).  The Waiting counter is a u8 the source
increments unguarded, hence the wrap modulo 256. -/
def Passenger.update (p : Passenger) : Passenger :=
  match p.status with
  | .Generated => p
  | .Expired => p
  | .TravelStart ticks =>
      if ticks = 0 then { p with status := .Waiting 0 }
      else { p with status := .TravelStart (ticks - 1) }
  | .Waiting ticks => { p with status := .Waiting ((ticks + 1) % 256) }
  | .OnBus _ => p
  | .TavelDest ticks =>
      if ticks = 0 then { p with status := .Expired }
      else { p with status := .TavelDest (ticks - 1) }

/-- Passenger::set_on_bus (bus.rs 105-107); `now` is the oracle for Utc::now(). -/
def Passenger.set_on_bus (now : Nat) (p : Passenger) : Passenger :=
  { p with status := .OnBus now }

/-- Passenger::set_travel_end (bus.rs 116-121); `walkTicks` is the oracle for
the f64 walking-time computation `(dist / 60.0 * HUMAN_WALKING_SPEED) as u8`. -/
def Passenger.set_travel_end (walkTicks : Passenger → Nat) (p : Passenger) : Passenger :=
  { p with status := .TavelDest (walkTicks p) }

/-- CurrentElement (bus.rs 19-24). -/
inductive CurrentElement where
  | PreGenerated : CurrentElement
  | Node : Nat → CurrentElement
  | Edge : Nat → Nat → CurrentElement
deriving DecidableEq, Repr

/-- Action returned by handle_node (bus.rs 13-17). -/
inductive Action where
  | Wait : Action
  | Continue : Action
  | Stop : Action
deriving DecidableEq, Repr

/-- Waypoint (waypoints.rs 8-13). -/
inductive Waypoint where
  | Passthrough : Nat → Waypoint
  | Pickup : Nat → Waypoint
  | Dropoff : Nat → Waypoint
deriving DecidableEq, Repr

def Waypoint.node : Waypoint → Nat
  | .Passthrough n => n
  | .Pickup n => n
  | .Dropoff n => n

/-- The Bus agent's state (bus.rs 124-146).  The graph handle and analytics
channel are dropped (shared read-only data and a side channel). -/
structure Bus where
  agent_id : Nat
  max_capacity : Nat
  rem_capacity : Nat
  passengers : List Passenger
  assignment : List (Nat × List Passenger)
  delivered_passengers : List Passenger
  path_waypoints : List Waypoint
  path_full : List Nat
  current_pos : Int × Int
  current_el : CurrentElement
  next_node : Nat
deriving DecidableEq, Repr

/-- The boarding loop of Bus::handle_node (bus.rs 213-227): while the index is
in range, if capacity remains, remove the passenger at the index, set it on
the bus and push it onto `passengers`; otherwise step over it.  Returns
(queue left at the node, boarded passengers in order, remaining capacity). -/
def boardLoop (now : Nat) : List Passenger → Nat → List Passenger × List Passenger × Nat
  | [], rem => ([], [], rem)
  | p :: rest, 0 => (p :: rest, [], 0)
  | p :: rest, rem + 1 =>
      let r := boardLoop now rest rem
      (r.1, Passenger.set_on_bus now p :: r.2.1, r.2.2)

/-- The alighting loop of Bus::handle_node (bus.rs 252-268): remove every
aboard passenger whose dest_node is this node, set it walking to its
destination, and collect it.  Returns (passengers staying, getting_off). -/
def alightLoop (walkTicks : Passenger → Nat) (node : Nat) :
    List Passenger → List Passenger × List Passenger
  | [] => ([], [])
  | p :: rest =>
      let r := alightLoop walkTicks node rest
      if p.dest_node = node then (r.1, Passenger.set_travel_end walkTicks p :: r.2)
      else (p :: r.1, r.2)

/-- Bus::handle_node (bus.rs 206-273): board waiting passengers assigned to
this node up to the remaining capacity, then alight every aboard passenger
whose destination is this node. Always returns Action::Continue. -/
def Bus.handle_node (now : Nat) (walkTicks : Passenger → Nat) (b : Bus) (node : Nat) :
    Bus × Action :=
  let b1 :=
    match alookup b.assignment node with
    | some q =>
        let r := boardLoop now q b.rem_capacity
        { b with
            assignment := aset b.assignment node r.1
            passengers := b.passengers ++ r.2.1
            rem_capacity := r.2.2 }
    | none => b
  let r2 := alightLoop walkTicks node b1.passengers
  ({ b1 with
      passengers := r2.1
      rem_capacity := b1.rem_capacity + r2.2.length
      delivered_passengers := b1.delivered_passengers ++ r2.2 }, Action.Continue)

/-- Bus::update_passengers (bus.rs 421-430): run the lifecycle update on the
aboard, assigned and delivered passengers. -/
def Bus.update_passengers (b : Bus) : Bus :=
  { b with
      passengers := b.passengers.map Passenger.update
      assignment := b.assignment.map (fun e => (e.1, e.2.map Passenger.update))
      delivered_passengers := b.delivered_passengers.map Passenger.update }

/-- Bus::move_self (bus.rs 453-582): update the passengers, then return at
once when path_full is empty; otherwise run the kinematic walk along the
current edge's polyline.  That walk works on f64 polyline geometry
(point-on-segment tests, sqrt in normalise), so it is taken as a parameter
`kin`; the properties proved here hold for every kin, and the empty-path
branch never reaches it. -/
def Bus.move_self (kin : Bus → Bus) (b : Bus) : Bus :=
  let b1 := b.update_passengers
  if b1.path_full.length = 0 then b1 else kin b1

/-- One assignment entry of Bus::destructive (bus.rs 377-391): walk the
entry's list; a passenger that is not currently on the bus is removed with
probability 0.5 (gen_bool, oracle `coins` consumed left to right from index
k), otherwise kept.  Returns (kept, removed, next coin index). -/
def destrEntry (aboard : List Passenger) (coins : Nat → Bool) :
    List Passenger → Nat → List Passenger × List Passenger × Nat
  | [], k => ([], [], k)
  | p :: rest, k =>
      if p ∈ aboard then
        let r := destrEntry aboard coins rest k
        (p :: r.1, r.2.1, r.2.2)
      else if coins k then
        let r := destrEntry aboard coins rest (k + 1)
        (r.1, p :: r.2.1, r.2.2)
      else
        let r := destrEntry aboard coins rest (k + 1)
        (p :: r.1, r.2.1, r.2.2)

/-- The fold of Bus::destructive over the assignment map's entries. -/
def destrFold (aboard : List Passenger) (coins : Nat → Bool) :
    List (Nat × List Passenger) → Nat →
    List (Nat × List Passenger) × List Passenger × Nat
  | [], k => ([], [], k)
  | (n, ps) :: rest, k =>
      let r1 := destrEntry aboard coins ps k
      let r2 := destrFold aboard coins rest r1.2.2
      ((n, r1.1) :: r2.1, r1.2.1 ++ r2.2.1, r2.2.2)

/-- Bus::destructive (bus.rs 374-394): remove with probability 0.5 each
assigned passenger that is not currently aboard; return the removed ones. -/
def Bus.destructive (coins : Nat → Bool) (b : Bus) : Bus × List Passenger :=
  let r := destrFold b.passengers coins b.assignment 0
  ({ b with assignment := r.1 }, r.2.1)

/-- DynamicController::destructive (dyn_controller/mod.rs 104-110): run the
destructive phase on every bus and reclaim the removed passengers into the
controller's demand queue.  The coin oracle is threaded through the buses. -/
def controllerDestructive (coins : Nat → Bool) :
    List Bus → List Passenger → Nat → List Bus × List Passenger
  | [], demands, _ => ([], demands)
  | b :: rest, demands, k =>
      let r := destrFold b.passengers coins b.assignment k
      let tail := controllerDestructive coins rest (demands ++ r.2.1) r.2.2
      ({ b with assignment := r.1 } :: tail.1, tail.2)

/-! Waypoint dependency forest, src/simulation/dyn_controller/waypoints.rs.

HashSet<Waypoint> is a duplicate-free list whose order stands for the set's
iteration order; insertion appends when the element is absent. -/

def setInsert (l : List Waypoint) (w : Waypoint) : List Waypoint :=
  if w ∈ l then l else l ++ [w]

/-- DirForest (waypoints.rs 27-31). -/
structure DirForest where
  roots : List Waypoint
  children : List (Waypoint × List Waypoint)
deriving DecidableEq, Repr

/-- DirForest::insert (waypoints.rs 35-44).  With a parent the source does
`self.children.get(&parent).unwrap().insert(child)`: when the parent key is
absent from `children` the unwrap panics, modelled as `none`.  Nothing in the
source ever adds a key to `children`, so the Some-parent branch can only
panic. -/
def DirForest.insert (f : DirForest) (parent : Option Waypoint) (child : Waypoint) :
    Option DirForest :=
  match parent with
  | some p =>
      match alookup f.children p with
      | some s => some { f with children := aset f.children p (setInsert s child) }
      | none => none
  | none => some { f with roots := setInsert f.roots child }

/-- DirForest::visit_waypoint (waypoints.rs 47-57): drop the waypoint from the
roots and promote its children (if any) into the roots. -/
def DirForest.visit_waypoint (f : DirForest) (w : Waypoint) : DirForest :=
  let roots1 := f.roots.filter (fun x => x ≠ w)
  match aremove f.children w with
  | some r => { roots := r.1.foldl setInsert roots1, children := r.2 }
  | none => { roots := roots1, children := f.children }

/-- DirForest::get_root_nodes (waypoints.rs 60-68): group the root waypoints
by node. -/
def DirForest.get_root_nodes (f : DirForest) : List (Nat × List Waypoint) :=
  f.roots.foldl
    (fun m w =>
      match alookup m w.node with
      | some s => aset m w.node (setInsert s w)
      | none => m ++ [(w.node, [w])])
    []

/-- Whether an assigned passenger still needs picking up
(waypoints.rs 92-98: Waiting or TravelStart). -/
def validStatus : Status → Bool
  | .Waiting _ => true
  | .TravelStart _ => true
  | _ => false

/-- One source-node entry of bus_waypoints (waypoints.rs 88-105): each
pending passenger inserts its Dropoff as a child of Pickup(source); if any
was pending, Pickup(source) is inserted as a root. -/
def entryWaypoints (f : DirForest) (n : Nat) (ps : List Passenger) : Option DirForest := do
  let f1 ← ps.foldlM
    (fun g p =>
      if validStatus p.status then g.insert (some (.Pickup n)) (.Dropoff p.dest_node)
      else some g)
    f
  if ps.any (fun p => validStatus p.status) then f1.insert none (.Pickup n) else some f1

/-- bus_waypoints (waypoints.rs 79-108): aboard passengers contribute root
Dropoffs; each assignment entry with a pending passenger contributes a
Pickup root and child Dropoffs.  `none` is the insert panic. -/
def bus_waypoints (b : Bus) : Option DirForest := do
  let f1 ← b.passengers.foldlM
    (fun g p => g.insert none (.Dropoff p.dest_node)) (⟨[], []⟩ : DirForest)
  b.assignment.foldlM (fun g e => entryWaypoints g e.1 e.2) f1

/-! Road graph and Dijkstra router, src/graph/route_finding.rs.

Node and edge ids are u128, modelled as Nat.  An edge's f64 `length` enters
the router only through the saturating cast `length as u32`, so it is a Nat
below 2^32 here; the router's one arithmetic operation, the u32 sum
`dist + edge.length as u32` of route_finding.rs 55, is modelled with its
release-build wrapping semantics as addition mod 2^32 (a debug build would
panic at the same overflow, so the two builds agree exactly on the
non-overflowing runs the correctness theorem is about); 4294967295 =
u32::MAX stands for the or_insert(u32::MAX) default of an absent distance
entry. -/

def UMAX : Nat := 4294967295

structure Edge where
  start_id : Nat
  end_id : Nat
  length : Nat
deriving DecidableEq, Repr

/-- The road graph (src/graph/types.rs, src/graph/mod.rs): node ids, node
positions (get_nodelist()[n].point), adjacency lists (get_adjacency()) and
edge records (get_edgelist()).  Positions are integer coordinates. -/
structure Graph where
  nodes : List Nat
  point : Nat → Int × Int
  adjacency : Nat → List Nat
  edges : Nat → Edge

/-- Well-formedness the loader guarantees (spec section 3): node keys are
unique, every adjacency entry is an edge incident to that node, and every
edge endpoint is a node. -/
def WF (g : Graph) : Prop :=
  g.nodes.Nodup ∧
    ∀ n ∈ g.nodes, ∀ e ∈ g.adjacency n,
      ((g.edges e).start_id = n ∨ (g.edges e).end_id = n) ∧
        (g.edges e).start_id ∈ g.nodes ∧ (g.edges e).end_id ∈ g.nodes

/-- The node reached by traversing edge e from node n
(route_finding.rs 54: if e_start == node { e_end } else { e_start }). -/
def otherEnd (g : Graph) (n e : Nat) : Nat :=
  if (g.edges e).start_id = n then (g.edges e).end_id else (g.edges e).start_id

/-- Heap entries (route_finding.rs 5-9). -/
structure St where
  node : Nat
  dist : Nat
deriving DecidableEq, Repr

/-- The Ord of route_finding.rs 11-15 as a strict order: a < b when b has the
smaller distance, ties broken by the larger node id.  BinaryHeap::pop
returns the greatest element, i.e. the least distance. -/
def stLtb (a b : St) : Bool := b.dist < a.dist || (b.dist == a.dist && a.node < b.node)

def heapMax (x : St) (xs : List St) : St :=
  xs.foldl (fun m y => if stLtb m y then y else m) x

/-- BinaryHeap::pop: remove and return the greatest element. -/
def popMax (h : List St) : Option (St × List St) :=
  match h with
  | [] => none
  | x :: xs =>
      let m := heapMax x xs
      some (m, (x :: xs).erase m)

/-- The router loop's mutable state: the distance labels (a total function,
with UMAX for the or_insert(u32::MAX) default of an absent key), the prev
back-pointer map, and the heap. -/
structure DState where
  dist : Nat → Nat
  prev : List (Nat × Nat)
  heap : List St

/-- One relaxation (route_finding.rs 50-67): compute the neighbour and the
candidate distance `cost + e.length as u32` — a u32 sum, which wraps mod
2^32 in release builds (and panics in debug builds at the same inputs);
when the (possibly wrapped) candidate improves the stored label, push it,
store it, and point prev at the current node. -/
def relaxEdge (g : Graph) (u du : Nat) (s : DState) (e : Nat) : DState :=
  let v := otherEnd g u e
  let nd := (du + (g.edges e).length) % 4294967296
  if nd < s.dist v then
    { dist := fun x => if x = v then nd else s.dist x
      prev := aset s.prev v u
      heap := ⟨v, nd⟩ :: s.heap }
  else s

def processNode (g : Graph) (u du : Nat) (s : DState) : DState :=
  (g.adjacency u).foldl (relaxEdge g u du) s

/-- The main loop of find_route (route_finding.rs 37-68).  Fuel is an
artifact of the embedding: `dijkstraFuel` below always suffices (each
iteration pops one entry, a node is closed at most once, and pushes are
bounded by the degrees), so the fuel-exhausted branch is never taken. -/
def dijkstraLoop (g : Graph) (dest : Nat) : Nat → DState → DState
  | 0, s => s
  | fuel + 1, s =>
      match popMax s.heap with
      | none => s
      | some r =>
          if r.1.node = dest then { s with heap := r.2 }
          else
            let cost := s.dist r.1.node
            if cost < r.1.dist then dijkstraLoop g dest fuel { s with heap := r.2 }
            else dijkstraLoop g dest fuel (processNode g r.1.node r.1.dist { s with heap := r.2 })

def dijkstraFuel (g : Graph) : Nat :=
  (g.nodes.map (fun n => (g.adjacency n).length)).sum + 2

/-- The prev back-pointer walk of find_route (route_finding.rs 70-82): push
the current node; while prev has it as a key and it is not the source,
follow the pointer.  Fuel bounds the walk; one more than the number of prev
entries always suffices (the walk visits distinct keys). -/
def backtrack (prev : List (Nat × Nat)) (source : Nat) : Nat → Nat → List Nat
  | 0, _ => []
  | f + 1, cur =>
      cur ::
        match alookup prev cur with
        | some p => if cur ≠ source then backtrack prev source f p else []
        | none => []

/-- find_route (route_finding.rs 24-85): Dijkstra from source, breaking when
dest is popped, then the prev walk from dest.  Note the walk starts at dest,
so the returned list runs dest .. source. -/
def find_route (g : Graph) (source dest : Nat) : List Nat :=
  let s0 : DState :=
    { dist := fun v => if v = source then 0 else UMAX
      prev := [(source, source)]
      heap := [⟨source, 0⟩] }
  let sF := dijkstraLoop g dest (dijkstraFuel g) s0
  backtrack sF.prev source (sF.prev.length + 1) dest

/-- The initial router state of find_route (route_finding.rs 26-35), named so
the correctness development can speak about it. -/
def initState (source : Nat) : DState :=
  { dist := fun v => if v = source then 0 else UMAX
    prev := [(source, source)]
    heap := [⟨source, 0⟩] }

/-- Walks of the road graph with their node trace: ReachesL g s v d l says the
trace l is a walk from s to v along adjacency-listed edges whose lengths sum
to d.  This is the "path" notion of the spec's router section. -/
inductive ReachesL (g : Graph) (source : Nat) : Nat → Nat → List Nat → Prop where
  | refl : ReachesL g source source 0 [source]
  | snoc {u d : Nat} {l : List Nat} (h : ReachesL g source u d l) (e : Nat)
      (he : e ∈ g.adjacency u) :
      ReachesL g source (otherEnd g u e) (d + (g.edges e).length) (l ++ [otherEnd g u e])

/-- d is the least total edge length over all source-to-dest walks. -/
def IsLeastDist (g : Graph) (source dest d : Nat) : Prop :=
  (∃ l, ReachesL g source dest d l) ∧ ∀ d' l', ReachesL g source dest d' l' → d ≤ d'

/-! Greedy waypoint sequencing, waypoints.rs 112-153. -/

/-- graph_distance (waypoints.rs 148-153): squared euclidean distance between
two node positions (exact on integer coordinates). -/
def graph_distance (g : Graph) (source dest : Nat) : Int :=
  ((g.point source).1 - (g.point dest).1) ^ 2 + ((g.point source).2 - (g.point dest).2) ^ 2

/-- The best-node scan of create_ordering (waypoints.rs 119-132): fold over
the root-node groups keeping the first strict minimum of the squared
distance from the last position (best_distance starts at f64::MAX, so the
first group always wins). -/
def selectBest (g : Graph) (last : Nat) (groups : List (Nat × List Waypoint)) :
    Option (Nat × List Waypoint) :=
  (groups.foldl
      (fun best entry =>
        let d := graph_distance g last entry.1
        match best with
        | none => some (entry, d)
        | some be => if d < be.2 then some (entry, d) else best)
      none).map (fun be => be.1)

def createOrderingLoop (g : Graph) : Nat → Nat → DirForest → List Waypoint
  | 0, _, _ => []
  | fuel + 1, last, f =>
      if f.roots.isEmpty then []
      else
        match selectBest g last f.get_root_nodes with
        | none => []
        | some na =>
            na.2 ++ createOrderingLoop g fuel na.1 (na.2.foldl DirForest.visit_waypoint f)

def totalCount (f : DirForest) : Nat :=
  f.roots.length + (f.children.map (fun e => e.2.length)).sum

/-- create_ordering (waypoints.rs 112-144): start with a Passthrough of the
starting point, then repeatedly visit the root-node group nearest (squared
euclidean) to the last position, appending its waypoints and promoting any
unblocked children.  Fuel: every iteration visits at least one waypoint, so
totalCount + 1 always suffices. -/
def create_ordering (g : Graph) (starting_point : Nat) (f : DirForest) : List Waypoint :=
  Waypoint.Passthrough starting_point ::
    createOrderingLoop g (totalCount f + 1) starting_point f

/-! Static (timetabled) controller, src/simulation/static_controller. -/

/-- NetworkStop (routes.rs 136-147), with integer easting/northing. -/
structure NetworkStop where
  easting : Int
  northing : Int
deriving DecidableEq, Repr

def NetworkStop.position (s : NetworkStop) : Int × Int := (s.easting, s.northing)

/-- NetworkTrip (routes.rs 157-162): stop ids and (arrival, departure) times
as seconds-of-day (NaiveTime). -/
structure NetworkTrip where
  stops : List Nat
  timings : List (Nat × Nat)
deriving DecidableEq, Repr

/-- NetworkData (routes.rs 164-170). -/
structure NetworkData where
  trips : List (Nat × NetworkTrip)
  stops : List (Nat × NetworkStop)
  trips_from_stop : List (Nat × List Nat)
deriving DecidableEq, Repr

/-- A generated demand sample (demand/mod.rs 31): source point, destination
point, timestamp. -/
structure Demand where
  src : Int × Int
  dst : Int × Int
  time : Nat
deriving DecidableEq, Repr

/-- Passenger instructions (static_controller/mod.rs 343-357).  source is
Ok(stop) for a bus leg and Err(position) for a walk from a point. -/
structure Control where
  destination_stop : Nat
  source : Sum Nat (Int × Int)
deriving DecidableEq, Repr

def Control.take_bus (_trip_id source destination : Nat) : Control :=
  { destination_stop := destination, source := Sum.inl source }

def Control.walk_to_stop (destination : Nat) (source : Int × Int) : Control :=
  { destination_stop := destination, source := Sum.inr source }

/-- PassengerStatus (agent.rs 33-38). -/
inductive PassengerStatus where
  | Generated : PassengerStatus
  | Waiting : PassengerStatus
  | OnBus : PassengerStatus
  | Finished : PassengerStatus
deriving DecidableEq, Repr

/-- BusPassenger (agent.rs 48-60), analytics channel dropped. -/
structure BusPassenger where
  id : Nat
  source_pos : Int × Int
  source_stop : Nat
  dest_pos : Int × Int
  dest_stop : Nat
  instructions : List Control
  status : PassengerStatus
deriving DecidableEq, Repr

/-- closest_stop_to_point (routes.rs 203-216): linear scan for the stop with
the least squared distance (the source compares squared distances and
returns the squared minimum); panics (`none`) when there are no stops. -/
def closest_stop_to_point (point : Int × Int) (nd : NetworkData) : Option (Nat × Int) :=
  nd.stops.foldl
    (fun acc e =>
      let d := (e.2.easting - point.1) ^ 2 + (e.2.northing - point.2) ^ 2
      match acc with
      | none => some (e.1, d)
      | some ad => if d < ad.2 then some (e.1, d) else acc)
    none

/-- The timing filter of basic_route_finding (mod.rs 232-239): look up the
trip, find the source stop's position in it, read that arrival time, and
keep trips departing within [tick, tick + 20 minutes).  Lookup failures are
the source's unwrap panics.  Times are seconds-of-day, so the window's upper
bound wraps at midnight like (tick + Duration::minutes(20)).time(). -/
def tripFilterCond (nd : NetworkData) (source_stop tickSec tripId : Nat) : Option Bool := do
  let trip_data ← alookup nd.trips tripId
  let idx ← trip_data.stops.findIdx? (fun s => s = source_stop)
  let timing ← trip_data.timings.get? idx
  some (decide (tickSec ≤ timing.1 ∧ timing.1 < (tickSec + 1200) % 86400))

/-- The inner scan of basic_route_finding (mod.rs 245-252): the stop of a
trip closest (squared distance, strict improvement) to the destination
stop's position. -/
def closestStopOnTrip (nd : NetworkData) (destPos : Int × Int) (stops : List Nat) :
    Option (Option (Int × Nat)) :=
  stops.foldlM
    (fun acc stopId => do
      let sd ← alookup nd.stops stopId
      let d := (sd.easting - destPos.1) ^ 2 + (sd.northing - destPos.2) ^ 2
      match acc with
      | none => some (some (d, stopId))
      | some ad => if d < ad.1 then some (some (d, stopId)) else some acc)
    none

/-- basic_route_finding (static_controller/mod.rs 219-264): walk to the
source stop, take the trip (departing within 20 minutes) whose closest
stop approaches the destination best, then close the gap from that stop.
When no trip qualifies the defaults min_trip = 0, min_trip_end_stop = 0 are
used, exactly as in the source. -/
def basic_route_finding (nd : NetworkData) (source_stop dest_stop : Nat)
    (source_pos : Int × Int) (tickSec : Nat) : Option (List Control) := do
  let dest_stop_data ← alookup nd.stops dest_stop
  let _trips_check ← alookup nd.trips_from_stop source_stop
  let best ← _trips_check.foldlM
    (fun acc tripId => do
      let cond ← tripFilterCond nd source_stop tickSec tripId
      if cond then do
        let trip_data ← alookup nd.trips tripId
        let inner ← closestStopOnTrip nd dest_stop_data.position trip_data.stops
        match inner with
        | some ds =>
            match acc with
            | none => some (some (ds.1, tripId, ds.2))
            | some ad => if ds.1 < ad.1 then some (some (ds.1, tripId, ds.2)) else some acc
        | none => some acc
      else some acc)
    (none : Option (Int × Nat × Nat))
  let mt : Nat × Nat :=
    match best with
    | some r => (r.2.1, r.2.2)
    | none => (0, 0)
  some [Control.walk_to_stop source_stop source_pos,
    Control.take_bus mt.1 source_stop mt.2,
    { destination_stop := dest_stop, source := Sum.inl mt.2 }]

/-- demand_to_passenger (static_controller/mod.rs 162-215): find the stops
nearest the endpoints, run basic_route_finding, and always wrap the result
in Some — the computed distances to the nearest stops are discarded and no
sample is ever rejected here. -/
def demand_to_passenger (nd : NetworkData) (demand : Demand) (tickSec id : Nat) :
    Option BusPassenger := do
  let source_r ← closest_stop_to_point demand.src nd
  let dest_r ← closest_stop_to_point demand.dst nd
  let control ← basic_route_finding nd source_r.1 dest_r.1 demand.src tickSec
  some
    { id := id
      source_pos := demand.src
      source_stop := source_r.1
      dest_pos := demand.dst
      dest_stop := dest_r.1
      instructions := control
      status := PassengerStatus.Generated }

/-- The walk-distance acceptance radius: 15 minutes at 1.4 m/s = 1260 m,
compared on squared distances (1260^2 = 1587600). -/
def walkRadiusSq : Int := 1587600

/-- Modelled from the spec: `DemandGenerator::generate_scaled_amount` is
called by both controllers but its definition is not among the staged
sources.  Per the spec's acceptance filter, a sample is rejected "if either
endpoint is farther than a 15-minute walk (at human walking speed 1.4 m/s)
from every node (dynamic mode) or every stop (static mode)"; this is the
static-mode (stop-based) predicate, on squared distances. -/
def acceptableSample (nd : NetworkData) (d : Demand) : Bool :=
  match closest_stop_to_point d.src nd, closest_stop_to_point d.dst nd with
  | some sr, some dr => decide (sr.2 ≤ walkRadiusSq ∧ dr.2 ≤ walkRadiusSq)
  | _, _ => false

/-- Modelled from the spec: the demand batch a controller receives from
`generate_scaled_amount` — the generated samples that pass the acceptance
filter (the retry cap only bounds how many raw samples are drawn). -/
def generate_scaled_amount (nd : NetworkData) (raw : List Demand) : List Demand :=
  raw.filter (acceptableSample nd)

/-- The conversion loop inside StaticController::update_agents
(static_controller/mod.rs 74-83): map demand_to_passenger over the batch,
incrementing the passenger id per sample, and keep the Some results. -/
def convertLoop (nd : NetworkData) (tickSec : Nat) : List Demand → Nat → List BusPassenger
  | [], _ => []
  | d :: rest, id =>
      match demand_to_passenger nd d tickSec id with
      | some p => p :: convertLoop nd tickSec rest (id + 1)
      | none => convertLoop nd tickSec rest (id + 1)

/-- The demand-conversion stage of StaticController::update_agents
(static_controller/mod.rs 73-84): the accepted batch from
generate_scaled_amount, converted into the passengers joining the pool. -/
def staticDemandPipeline (nd : NetworkData) (raw : List Demand) (tickSec id0 : Nat) :
    List BusPassenger :=
  convertLoop nd tickSec (generate_scaled_amount nd raw) id0

/-! Static vehicle spawning, StaticController::update_agents 43-71 and the
tick loop of src/simulation/mod.rs (init 104-107, start 181-219, tick
273-294). -/

/-- The tick instants of a full simulation run, as seconds of day: the clock
starts at 05:00:00, each tick advances one minute before updating, and the
loop stops once the clock passes 23:00:00 — so update_agents runs at
05:01:00, 05:02:00, ..., 23:01:00. -/
def tickTimes : List Nat := (List.range 1081).map (fun k => (301 + k) * 60)

/-- The spawn filter of update_agents (mod.rs 53-58): the trip's first
scheduled arrival lies within the minute before the tick instant, i.e.
0 ≤ t − start < 60 seconds. -/
def spawnCond (startSec t : Nat) : Bool := decide (startSec ≤ t ∧ t < startSec + 60)

/-- The spawning pass of one update_agents call: for every trip whose filter
fires at tick t, insert a fresh agent for it (HashMap::insert replaces any
existing agent).  An agent is represented by the tick that created it. -/
def update_agents_spawn (trips : List (Nat × Nat)) (buses : List (Nat × Nat)) (t : Nat) :
    List (Nat × Nat) :=
  (trips.filter (fun tr => spawnCond tr.2 t)).foldl (fun bs tr => aset bs tr.1 t) buses

/-- The buses map after a full simulation run. -/
def runStatic (trips : List (Nat × Nat)) : List (Nat × Nat) :=
  tickTimes.foldl (update_agents_spawn trips) []

/-- All waypoints a forest holds: its roots and every child list. -/
def allWaypoints (f : DirForest) : List Waypoint :=
  f.roots ++ (f.children.map (fun e => e.2)).flatten

/-! Concrete inputs used by the counterexamples and witnesses. -/

/-- Example road graph: nodes 0, 1, 2; edge 0 joins 0-1 (length 1), edge 1
joins 1-2 (length 1), edge 2 joins 0-2 (length 5).  The shortest 0-to-2
route is 0,1,2 with total length 2. -/
def gEx : Graph :=
  { nodes := [0, 1, 2]
    point := fun _ => (0, 0)
    adjacency := fun n =>
      if n = 0 then [0, 2] else if n = 1 then [0, 1] else if n = 2 then [1, 2] else []
    edges := fun e => if e = 0 then ⟨0, 1, 1⟩ else if e = 1 then ⟨1, 2, 1⟩ else ⟨0, 2, 5⟩ }

/-- Example disconnected graph: nodes 0 and 1 joined by edge 0 (length 3);
node 2 is isolated, so it is unreachable from 0. -/
def gDis : Graph :=
  { nodes := [0, 1, 2]
    point := fun _ => (0, 0)
    adjacency := fun n => if n = 0 then [0] else if n = 1 then [0] else []
    edges := fun _ => ⟨0, 1, 3⟩ }

/-- Example pending passenger: assigned at source node 5, destination 7,
waiting for pickup. -/
def cPend : Passenger :=
  { id := 1, source_pos := (0, 0), source_node := 5, dest_pos := (1, 1), dest_node := 7
    timeframe := 0, status := .Waiting 0 }

/-- Example bus with one assigned (not yet aboard) passenger. -/
def cBusPending : Bus :=
  { agent_id := 0, max_capacity := 2, rem_capacity := 2, passengers := []
    assignment := [(5, [cPend])], delivered_passengers := [], path_waypoints := []
    path_full := [], current_pos := (0, 0), current_el := .PreGenerated, next_node := 0 }

/-- Example bus with the same passenger aboard instead. -/
def cBusAboard : Bus :=
  { cBusPending with passengers := [{ cPend with status := .OnBus 0 }], assignment := [] }

/-- Example bus for the capacity witness: capacity 2, one aboard passenger
bound for node 5, two more assigned at node 5 with one seat free. -/
def cBusFull : Bus :=
  { cBusPending with
      rem_capacity := 1
      passengers := [{ cPend with id := 3, status := .OnBus 0, dest_node := 5 }]
      assignment := [(5, [cPend, { cPend with id := 2 }])] }

/-- Example graph for the ordering counterexample: nodes 1 and 2 are
equidistant (squared distance 1) from node 0. -/
def g9 : Graph :=
  { nodes := [0, 1, 2]
    point := fun n => if n = 1 then (1, 0) else if n = 2 then (0, 1) else (0, 0)
    adjacency := fun _ => []
    edges := fun _ => ⟨0, 0, 0⟩ }

/-- Example graph for the ordering witness: nodes 1 and 2 at distinct
distances from everything. -/
def g9d : Graph :=
  { nodes := [0, 1, 2]
    point := fun n => if n = 1 then (1, 0) else if n = 2 then (0, 3) else (0, 0)
    adjacency := fun _ => []
    edges := fun _ => ⟨0, 0, 0⟩ }

def f9a : DirForest := ⟨[.Pickup 1, .Pickup 2], []⟩

def f9b : DirForest := ⟨[.Pickup 2, .Pickup 1], []⟩

/-- Example static network: a single stop with id 1 at the origin and no
trips. -/
def nd0 : NetworkData :=
  { trips := [], stops := [(1, ⟨0, 0⟩)], trips_from_stop := [(1, [])] }

/-- Example demand sample 20000 m from the only stop: a 20000 / 1.4 ≈ 238
minute walk, far beyond the 15-minute acceptance radius. -/
def farD : Demand := { src := (20000, 0), dst := (20000, 0), time := 0 }

/-- Example demand sample 10 m from the only stop. -/
def nearD : Demand := { src := (10, 0), dst := (0, 10), time := 0 }

/-- The passenger the static pipeline produces from nearD. -/
def pNear : BusPassenger :=
  { id := 0, source_pos := (10, 0), source_stop := 1, dest_pos := (0, 10), dest_stop := 1
    instructions := [⟨1, Sum.inr (10, 0)⟩, ⟨0, Sum.inl 1⟩, ⟨1, Sum.inl 0⟩]
    status := PassengerStatus.Generated }

/-! Dijkstra loop invariants.  S is the list of closed (popped and processed)
nodes in closing order. -/

/-- Total length of the adjacency entries of the listed nodes (each
undirected edge counted once per listed endpoint). -/
def edgeSumOver (g : Graph) (S : List Nat) : Nat :=
  (S.map (fun n => ((g.adjacency n).map (fun e => (g.edges e).length)).sum)).sum

/-- Total length of all adjacency entries of the graph: an overflow budget
for the router's u32 distance sums. -/
def edgeLenSum (g : Graph) : Nat := edgeSumOver g g.nodes

/-- The facts about dist/prev that survive to the prev back-pointer walk. -/
structure BInv (g : Graph) (source : Nat) (S : List Nat) (s : DState) : Prop where
  snodup : S.Nodup
  sMem : ∀ u ∈ S, u ∈ g.nodes
  dsrc : s.dist source = 0
  distLe : ∀ v, s.dist v ≤ UMAX
  realize : ∀ v, s.dist v < UMAX → ∃ l, ReachesL g source v (s.dist v) l
  closedOpt : ∀ u ∈ S, s.dist u < UMAX ∧ IsLeastDist g source u (s.dist u)
  prevSrc : alookup s.prev source = some source
  prevKeys : ∀ v, v ≠ source → ((alookup s.prev v).isSome ↔ s.dist v < UMAX)
  prevStep : ∀ v u, alookup s.prev v = some u → v ≠ source →
      u ∈ S ∧
        (∃ e ∈ g.adjacency u, otherEnd g u e = v ∧
          s.dist v = s.dist u + (g.edges e).length) ∧
        (v ∈ S → S.indexOf u < S.indexOf v)
  prevNodup : (s.prev.map Prod.fst).Nodup
  distFin : ∀ v, s.dist v < UMAX → s.dist v ≤ edgeSumOver g S

/-- The full loop invariant: BInv plus the heap facts. -/
structure DInv (g : Graph) (source dest : Nat) (S : List Nat) (s : DState)
    extends BInv g source S s : Prop where
  heapBound : ∀ st ∈ s.heap, s.dist st.node ≤ st.dist ∧ st.dist < UMAX ∧ st.node ∈ g.nodes
  heapCover : ∀ v, v ∉ S → s.dist v < UMAX → (⟨v, s.dist v⟩ : St) ∈ s.heap
  heapVals : s.heap.Pairwise (fun a b => a.node = b.node → a.dist ≠ b.dist)
  heapClosed : ∀ st ∈ s.heap, st.node ∈ S → s.dist st.node < st.dist
  heapSource : source ∈ S ∨ (⟨source, 0⟩ : St) ∈ s.heap
  closedRelaxed : ∀ u ∈ S, ∀ e ∈ g.adjacency u,
      s.dist (otherEnd g u e) ≤ s.dist u + (g.edges e).length
  destNotS : dest ∉ S

/-- The loop's termination measure: the total degree of the not-yet-closed
nodes plus the heap size. -/
def phi (g : Graph) (S : List Nat) (s : DState) : Nat :=
  ((g.nodes.filter (fun n => n ∉ S)).map (fun n => (g.adjacency n).length)).sum +
    s.heap.length

/-- The invariant holding while a freshly popped node u (with final distance
du) is having its edges relaxed: DInv for the extended closed list, except
that closedRelaxed at u itself is only guaranteed for the already-processed
edges (tracked separately by the fold lemma). -/
structure PInv (g : Graph) (source dest u du : Nat) (S : List Nat) (s : DState)
    extends BInv g source S s : Prop where
  uMem : u ∈ S
  duLt : du < UMAX
  distU : s.dist u = du
  duBound : du + ((g.adjacency u).map (fun e => (g.edges e).length)).sum ≤ edgeSumOver g S
  sumLe : edgeSumOver g S ≤ UMAX
  heapBound : ∀ st ∈ s.heap, s.dist st.node ≤ st.dist ∧ st.dist < UMAX ∧ st.node ∈ g.nodes
  heapCover : ∀ v, v ∉ S → s.dist v < UMAX → (⟨v, s.dist v⟩ : St) ∈ s.heap
  heapVals : s.heap.Pairwise (fun a b => a.node = b.node → a.dist ≠ b.dist)
  heapClosed : ∀ st ∈ s.heap, st.node ∈ S → s.dist st.node < st.dist
  heapSource : source ∈ S ∨ (⟨source, 0⟩ : St) ∈ s.heap
  closedRelaxedOld : ∀ w ∈ S, w ≠ u → ∀ e ∈ g.adjacency w,
      s.dist (otherEnd g w e) ≤ s.dist w + (g.edges e).length
  destNotS : dest ∉ S

/-- The light reachability invariant, preserved by the router regardless of
what values the (possibly wrapped) u32 sums take: the source's label stays
0, the source keeps its self prev entry, and every prev key and heap node
is reachable from the source by some walk.  It is what the unreachable-dest
behavior depends on. -/
structure LInv (g : Graph) (source : Nat) (s : DState) : Prop where
  dsrcL : s.dist source = 0
  prevSrcL : alookup s.prev source = some source
  prevReach : ∀ v, (alookup s.prev v).isSome → ∃ d l, ReachesL g source v d l
  heapReach : ∀ st ∈ s.heap, ∃ d l, ReachesL g source st.node d l

/-! Association list lemmas. -/

theorem alookup_aset_self {κ α : Type} [DecidableEq κ] (l : List (κ × α)) (k : κ) (v : α) :
    alookup (aset l k v) k = some v := by
  induction l with
  | nil => simp [aset, alookup]
  | cons hd tl ih =>
    obtain ⟨k0, v0⟩ := hd
    by_cases h : k0 = k <;> simp [aset, alookup, h, ih]

theorem alookup_aset_ne {κ α : Type} [DecidableEq κ] (l : List (κ × α)) (k k' : κ) (v : α)
    (h : k' ≠ k) : alookup (aset l k v) k' = alookup l k' := by
  have h' : k ≠ k' := fun hh => h hh.symm
  induction l with
  | nil => simp [aset, alookup, h']
  | cons hd tl ih =>
    obtain ⟨k0, v0⟩ := hd
    by_cases h0 : k0 = k
    · subst h0
      simp [aset, alookup, h, h']
    · by_cases h1 : k0 = k' <;> simp [aset, alookup, h, h', h0, h1, ih]

/-! Claim C2 helpers: the two loops of handle_node. -/

theorem boardLoop_spec (now : Nat) :
    ∀ (q : List Passenger) (rem : Nat),
      boardLoop now q rem =
        (q.drop rem, (q.take rem).map (Passenger.set_on_bus now), rem - q.length) := by
  intro q
  induction q with
  | nil => intro rem; simp [boardLoop]
  | cons p rest ih =>
    intro rem
    cases rem with
    | zero => simp [boardLoop]
    | succ r => simp [boardLoop, ih r, Nat.succ_sub_succ]

theorem alightLoop_len (wt : Passenger → Nat) (node : Nat) :
    ∀ ps : List Passenger,
      (alightLoop wt node ps).1.length + (alightLoop wt node ps).2.length = ps.length := by
  intro ps
  induction ps with
  | nil => simp [alightLoop]
  | cons p rest ih =>
    by_cases h : p.dest_node = node <;> simp [alightLoop, h] <;> omega

/-- Claim C2: for every vehicle state satisfying the capacity invariant
rem_capacity + len(passengers) = max_capacity, handle_node preserves it,
len(passengers) ≤ max_capacity holds before and after, boarding takes
exactly the first min(rem_capacity, queue) passengers of the node's queue
(flipping them to OnBus) and leaves the excess queued at the node, and the
call returns Action::Continue — boarding beyond capacity is a no-op, never
an error. -/
theorem c2_handle_node_capacity (now : Nat) (wt : Passenger → Nat) (b : Bus) (node : Nat)
    (hinv : b.rem_capacity + b.passengers.length = b.max_capacity) :
    ((Bus.handle_node now wt b node).1.rem_capacity +
        (Bus.handle_node now wt b node).1.passengers.length =
        (Bus.handle_node now wt b node).1.max_capacity) ∧
      b.passengers.length ≤ b.max_capacity ∧
      (Bus.handle_node now wt b node).1.passengers.length ≤
        (Bus.handle_node now wt b node).1.max_capacity ∧
      (Bus.handle_node now wt b node).1.max_capacity = b.max_capacity ∧
      (∀ q, alookup b.assignment node = some q →
        alookup (Bus.handle_node now wt b node).1.assignment node =
          some (q.drop b.rem_capacity) ∧
        (boardLoop now q b.rem_capacity).2.1 =
          (q.take b.rem_capacity).map (Passenger.set_on_bus now)) ∧
      (Bus.handle_node now wt b node).2 = Action.Continue := by
  cases hq : alookup b.assignment node with
  | none =>
    have hlen := alightLoop_len wt node b.passengers
    simp only [Bus.handle_node, hq]
    refine ⟨by omega, by omega, by omega, by trivial, ?_, by trivial⟩
    intro q hq'
    exact absurd hq' (by simp)
  | some q =>
    have hlen := alightLoop_len wt node (b.passengers ++ (q.take b.rem_capacity).map
      (Passenger.set_on_bus now))
    have htake : ((q.take b.rem_capacity).map (Passenger.set_on_bus now)).length =
        min b.rem_capacity q.length := by
      simp
    simp only [Bus.handle_node, hq, boardLoop_spec]
    refine ⟨?_, by omega, ?_, by trivial, ?_, by trivial⟩
    · simp only [List.length_append] at hlen ⊢
      simp only [htake] at hlen
      omega
    · simp only [List.length_append] at hlen
      simp only [htake] at hlen
      omega
    · intro q' hq'
      have hqq : q = q' := Option.some.inj hq'
      subst hqq
      exact ⟨alookup_aset_self b.assignment node _, by simp [boardLoop_spec]⟩

/-- Witness for C2 at a concrete bus: capacity 2, one passenger aboard, one
seat free, two passengers queued at node 5. -/
theorem c2_handle_node_capacity_witness :
    (cBusFull.rem_capacity + cBusFull.passengers.length = cBusFull.max_capacity) ∧
      (Bus.handle_node 9 (fun _ => 4) cBusFull 5).1.rem_capacity +
          (Bus.handle_node 9 (fun _ => 4) cBusFull 5).1.passengers.length =
        (Bus.handle_node 9 (fun _ => 4) cBusFull 5).1.max_capacity :=
  ⟨by decide, (c2_handle_node_capacity 9 (fun _ => 4) cBusFull 5 (by decide)).1⟩

/-- Claim C3 (code_bug evidence): the Yield handler with 2 samples buffered
and amount 1 discards the whole buffer and then panics draining 1 from the
now-empty buffer (`none`); with amount 0 it still discards the buffered
sample instead of keeping it; only when the buffer holds fewer samples than
requested does it behave as specified (here generating 2 samples for
amount 3 with 1 buffered and transferring exactly 3). -/
theorem c3_yield_discards_and_panics :
    yieldStep (fun n => List.range n) 1 [7, 8] = none ∧
      yieldStep (fun n => List.range n) 0 [7] = some ([], []) ∧
      yieldStep (fun n => List.range n) 3 [7] = some ([7, 0, 1], []) := by
  decide

/-! Claim C4 helpers. -/

theorem destrEntry_removed (aboard : List Passenger) (coins : Nat → Bool) :
    ∀ (ps : List Passenger) (k : Nat),
      ∀ p ∈ (destrEntry aboard coins ps k).2.1, p ∈ ps ∧ p ∉ aboard := by
  intro ps
  induction ps with
  | nil => intro k p hp; simp [destrEntry] at hp
  | cons q rest ih =>
    intro k p hp
    by_cases hmem : q ∈ aboard
    · simp only [destrEntry, if_pos hmem] at hp
      have := ih k p hp
      exact ⟨List.mem_cons_of_mem _ this.1, this.2⟩
    · by_cases hc : coins k
      · simp only [destrEntry, if_neg hmem, if_pos hc, List.mem_cons] at hp
        rcases hp with rfl | hp
        · exact ⟨List.mem_cons_self _ _, hmem⟩
        · have := ih (k + 1) p hp
          exact ⟨List.mem_cons_of_mem _ this.1, this.2⟩
      · simp only [destrEntry, if_neg hmem, if_neg hc] at hp
        have := ih (k + 1) p hp
        exact ⟨List.mem_cons_of_mem _ this.1, this.2⟩

theorem destrFold_removed (aboard : List Passenger) (coins : Nat → Bool) :
    ∀ (entries : List (Nat × List Passenger)) (k : Nat),
      ∀ p ∈ (destrFold aboard coins entries k).2.1,
        (∃ e ∈ entries, p ∈ e.2) ∧ p ∉ aboard := by
  intro entries
  induction entries with
  | nil => intro k p hp; simp [destrFold] at hp
  | cons e rest ih =>
    intro k p hp
    obtain ⟨n, ps⟩ := e
    simp only [destrFold, List.mem_append] at hp
    rcases hp with hp | hp
    · have := destrEntry_removed aboard coins ps k p hp
      exact ⟨⟨(n, ps), List.mem_cons_self _ _, this.1⟩, this.2⟩
    · have := ih _ p hp
      exact ⟨⟨this.1.choose, List.mem_cons_of_mem _ this.1.choose_spec.1,
        this.1.choose_spec.2⟩, this.2⟩

/-- Claim C4: in the destructive LNS phase, for every coin-flip outcome,
every bus keeps its aboard passengers untouched (a passenger already aboard
is never removed), and the controller's demand queue is extended with
exactly the removed passengers, each of which was assigned to some bus but
not aboard it. -/
theorem c4_destructive_only_pending (coins : Nat → Bool) (buses : List Bus)
    (demands : List Passenger) (k : Nat) :
    ((controllerDestructive coins buses demands k).1.map Bus.passengers =
        buses.map Bus.passengers) ∧
      ∃ rem, (controllerDestructive coins buses demands k).2 = demands ++ rem ∧
        ∀ p ∈ rem, ∃ b ∈ buses, (∃ e ∈ b.assignment, p ∈ e.2) ∧ p ∉ b.passengers := by
  induction buses generalizing demands k with
  | nil => exact ⟨rfl, [], by simp [controllerDestructive]⟩
  | cons b rest ih =>
    obtain ⟨ihmap, rem2, ihdem, ihrem⟩ :=
      ih (demands ++ (destrFold b.passengers coins b.assignment k).2.1)
        (destrFold b.passengers coins b.assignment k).2.2
    refine ⟨by simp [controllerDestructive, ihmap], ?_⟩
    refine ⟨(destrFold b.passengers coins b.assignment k).2.1 ++ rem2, ?_, ?_⟩
    · simp only [controllerDestructive]
      rw [ihdem, List.append_assoc]
    · intro p hp
      rcases List.mem_append.mp hp with hp | hp
      · have := destrFold_removed b.passengers coins b.assignment k p hp
        exact ⟨b, List.mem_cons_self _ _, this.1, this.2⟩
      · obtain ⟨b', hb', hfacts⟩ := ihrem p hp
        exact ⟨b', List.mem_cons_of_mem _ hb', hfacts⟩

/-- Claim C5 (code_bug evidence): with a single assigned, not-yet-boarded
passenger (source node 5, destination 7), bus_waypoints panics (`none`)
instead of building the forest with Dropoff(7) as a child of Pickup(5):
DirForest::insert with a parent unwraps children.get(&parent), and nothing
ever adds a key to the children map.  With the passenger aboard instead,
the construction succeeds and yields the lone root Dropoff(7). -/
theorem c5_bus_waypoints_panics :
    bus_waypoints cBusPending = none ∧
      bus_waypoints cBusAboard = some ⟨[Waypoint.Dropoff 7], []⟩ := by
  decide

/-- Claim C10: when path_full is empty, move_self performs the passenger
lifecycle updates (aboard, assigned and delivered all advance by one
update() step) but leaves the kinematic state — current_pos, current_el,
next_node — and the capacity fields unchanged, for every kinematic
continuation kin; no boarding or alighting occurs. -/
theorem c10_move_self_frame (kin : Bus → Bus) (b : Bus) (h : b.path_full = []) :
    Bus.move_self kin b = b.update_passengers ∧
      (Bus.move_self kin b).current_pos = b.current_pos ∧
      (Bus.move_self kin b).current_el = b.current_el ∧
      (Bus.move_self kin b).next_node = b.next_node ∧
      (Bus.move_self kin b).path_full = b.path_full ∧
      (Bus.move_self kin b).passengers = b.passengers.map Passenger.update ∧
      (Bus.move_self kin b).assignment =
        b.assignment.map (fun e => (e.1, e.2.map Passenger.update)) ∧
      (Bus.move_self kin b).delivered_passengers =
        b.delivered_passengers.map Passenger.update ∧
      (Bus.move_self kin b).rem_capacity = b.rem_capacity ∧
      (Bus.move_self kin b).max_capacity = b.max_capacity := by
  have hmove : Bus.move_self kin b = b.update_passengers := by
    simp [Bus.move_self, Bus.update_passengers, h]
  rw [hmove]
  simp [Bus.update_passengers, h]

/-- Witness for C10 at a concrete bus with an empty path. -/
theorem c10_move_self_frame_witness :
    cBusPending.path_full = [] ∧
      Bus.move_self id cBusPending = cBusPending.update_passengers :=
  ⟨rfl, (c10_move_self_frame id cBusPending rfl).1⟩

/-! Claim C7. -/

theorem demand_to_passenger_pos (nd : NetworkData) (d : Demand) (t i : Nat)
    (p : BusPassenger) (h : demand_to_passenger nd d t i = some p) :
    p.source_pos = d.src ∧ p.dest_pos = d.dst := by
  simp only [demand_to_passenger, bind, Option.bind_eq_some] at h
  obtain ⟨sr, _, dr, _, c, _, hp⟩ := h
  cases hp
  exact ⟨rfl, rfl⟩

theorem convertLoop_mem (nd : NetworkData) (t : Nat) :
    ∀ (l : List Demand) (id0 : Nat), ∀ p ∈ convertLoop nd t l id0,
      ∃ d ∈ l, ∃ i, demand_to_passenger nd d t i = some p := by
  intro l
  induction l with
  | nil => intro id0 p hp; simp [convertLoop] at hp
  | cons d rest ih =>
    intro id0 p hp
    cases hd : demand_to_passenger nd d t id0 with
    | some q =>
      simp only [convertLoop, hd, List.mem_cons] at hp
      rcases hp with rfl | hp
      · exact ⟨d, List.mem_cons_self _ _, id0, hd⟩
      · obtain ⟨d', hd', i, hi⟩ := ih (id0 + 1) p hp
        exact ⟨d', List.mem_cons_of_mem _ hd', i, hi⟩
    | none =>
      simp only [convertLoop, hd] at hp
      obtain ⟨d', hd', i, hi⟩ := ih (id0 + 1) p hp
      exact ⟨d', List.mem_cons_of_mem _ hd', i, hi⟩

/-- Claim C7 (amended): the 15-minute-walk acceptance filter is applied
upstream, in generate_scaled_amount (modelled from the spec; not in
demand_to_passenger, which converts every sample handed to it): every
passenger entering the static controller's pool comes from a raw sample
both of whose endpoints lie within the 1260 m radius of their nearest
stops, so a sample whose nearest stop is a 20-minute walk away never
becomes a BusPassenger in the pool. -/
theorem c7_pipeline_filter_amended (nd : NetworkData) (raw : List Demand)
    (tickSec id0 : Nat) (p : BusPassenger)
    (hp : p ∈ staticDemandPipeline nd raw tickSec id0) :
    ∃ d ∈ raw, acceptableSample nd d = true ∧
      p.source_pos = d.src ∧ p.dest_pos = d.dst := by
  obtain ⟨d, hd, i, hi⟩ := convertLoop_mem nd tickSec _ id0 p hp
  have hacc := List.mem_filter.mp hd
  exact ⟨d, hacc.1, hacc.2, demand_to_passenger_pos nd d tickSec i p hi⟩

/-- Witness for C7 at the concrete near sample. -/
theorem c7_pipeline_filter_amended_witness :
    pNear ∈ staticDemandPipeline nd0 [nearD] 0 0 ∧
      ∃ d ∈ [nearD], acceptableSample nd0 d = true ∧
        pNear.source_pos = d.src ∧ pNear.dest_pos = d.dst :=
  ⟨by decide, c7_pipeline_filter_amended nd0 [nearD] 0 0 pNear (by decide)⟩

/-- Claim C7 counterexample: demand_to_passenger itself rejects nothing — a
sample whose endpoints are 20000 m (a 238-minute walk) from the only stop
is still converted to Some passenger; the sample is instead dropped by the
upstream acceptance filter, so it never reaches the pool. -/
theorem c7_counterexample :
    acceptableSample nd0 farD = false ∧
      (demand_to_passenger nd0 farD 0 0).isSome = true ∧
      staticDemandPipeline nd0 [farD] 0 0 = [] := by
  decide

/-! Claim C8 helpers. -/

theorem fm_filter {α β : Type} (f : α → β) (p : β → Bool) :
    ∀ l : List α, (l.map f).filter p = (l.filter (fun a => p (f a))).map f := by
  intro l
  induction l with
  | nil => rfl
  | cons a rest ih =>
    by_cases h : p (f a) <;> simp [h, ih]

theorem range_filter_single (k0 : Nat) :
    ∀ n, k0 < n → (List.range n).filter (fun k => decide (k = k0)) = [k0] := by
  intro n
  induction n with
  | zero => omega
  | succ m ih =>
    intro h
    rw [List.range_succ, List.filter_append]
    by_cases hm : k0 < m
    · rw [ih hm]
      have : m ≠ k0 := by omega
      simp [this]
    · have hk : k0 = m := by omega
      subst hk
      have hnil : (List.range k0).filter (fun k => decide (k = k0)) = [] := by
        apply List.filter_eq_nil_iff.mpr
        intro a ha
        have := List.mem_range.mp ha
        simp
        omega
      simp [hnil]

theorem tickTimes_filter_eq (s : Nat) (h1 : 18000 < s) (h2 : s ≤ 82860) :
    tickTimes.filter (fun u => spawnCond s u) = [60 * ((s + 59) / 60)] := by
  have hq : 301 ≤ (s + 59) / 60 := by omega
  have hq2 : (s + 59) / 60 < 1382 := by omega
  rw [tickTimes, fm_filter]
  have hcong : (List.range 1081).filter (fun k => spawnCond s ((301 + k) * 60)) =
      (List.range 1081).filter (fun k => decide (k = (s + 59) / 60 - 301)) := by
    apply List.filter_congr
    intro k _
    simp only [spawnCond, decide_eq_decide]
    omega
  rw [hcong, range_filter_single _ _ (by omega)]
  simp only [List.map_cons, List.map_nil]
  have he : (301 + ((s + 59) / 60 - 301)) * 60 = 60 * ((s + 59) / 60) := by omega
  rw [he]

theorem fold_spawn_none (id s : Nat) :
    ∀ (l : List Nat) (bs : List (Nat × Nat)),
      l.filter (fun u => spawnCond s u) = [] →
      l.foldl (update_agents_spawn [(id, s)]) bs = bs := by
  intro l
  induction l with
  | nil => intro bs _; rfl
  | cons u rest ih =>
    intro bs hf
    cases hc : spawnCond s u with
    | true => simp only [List.filter_cons, hc, if_true] at hf; exact absurd hf (by simp)
    | false =>
      simp only [List.filter_cons, hc, if_false] at hf
      simp only [List.foldl_cons]
      rw [show update_agents_spawn [(id, s)] bs u = bs by
        simp [update_agents_spawn, List.filter_cons, hc]]
      exact ih bs hf

theorem fold_spawn_single (id s t : Nat) :
    ∀ (l : List Nat) (bs : List (Nat × Nat)),
      l.filter (fun u => spawnCond s u) = [t] →
      l.foldl (update_agents_spawn [(id, s)]) bs = aset bs id t := by
  intro l
  induction l with
  | nil => intro bs hf; simp at hf
  | cons u rest ih =>
    intro bs hf
    cases hc : spawnCond s u with
    | true =>
      simp only [List.filter_cons, hc, if_true, List.cons.injEq] at hf
      obtain ⟨heq, hrest⟩ := hf
      subst heq
      simp only [List.foldl_cons]
      rw [show update_agents_spawn [(id, s)] bs u = aset bs id u by
        simp [update_agents_spawn, List.filter_cons, hc]]
      exact fold_spawn_none id s rest _ hrest
    | false =>
      simp only [List.filter_cons, hc, if_false] at hf
      simp only [List.foldl_cons]
      rw [show update_agents_spawn [(id, s)] bs u = bs by
        simp [update_agents_spawn, List.filter_cons, hc]]
      exact ih bs hf

/-- Claim C8 (amended): a trip whose scheduled start lies inside the
simulated horizon — after the first tick instant's window opens at
05:00:00 and no later than the last tick 23:01:00 — is spawned exactly
once over the full run: exactly one tick instant satisfies the spawn
filter, that instant is the unique whole minute in [start, start + 60s),
and the final buses map holds exactly one agent for the trip.  Trips
starting outside the horizon are never spawned (see the counterexample). -/
theorem c8_spawn_once_amended (id s : Nat) (h1 : 18000 < s) (h2 : s ≤ 82860) :
    ∃ t, tickTimes.filter (fun u => spawnCond s u) = [t] ∧
      s ≤ t ∧ t < s + 60 ∧ t % 60 = 0 ∧ runStatic [(id, s)] = [(id, t)] := by
  refine ⟨60 * ((s + 59) / 60), tickTimes_filter_eq s h1 h2, by omega, by omega, by omega, ?_⟩
  rw [runStatic, fold_spawn_single id s _ tickTimes [] (tickTimes_filter_eq s h1 h2)]
  rfl

/-- Witness for C8 at a trip starting 05:01:30: it spawns exactly once, at
tick 05:02:00. -/
theorem c8_spawn_once_amended_witness :
    (18000 < 18090 ∧ 18090 ≤ 82860) ∧
      ∃ t, tickTimes.filter (fun u => spawnCond 18090 u) = [t] ∧
        18090 ≤ t ∧ t < 18090 + 60 ∧ t % 60 = 0 ∧ runStatic [(4, 18090)] = [(4, t)] :=
  ⟨by decide, c8_spawn_once_amended 4 18090 (by decide) (by decide)⟩

/-- Claim C8 counterexample: a trip scheduled at 04:00:00 — before the
simulation clock starts ticking at 05:01:00 — is never spawned at all, so
"a vehicle for every trip is spawned exactly once" fails as stated. -/
theorem c8_counterexample :
    runStatic [(0, 14400)] = [] ∧
      tickTimes.filter (fun u => spawnCond 14400 u) = [] := by
  have hf : tickTimes.filter (fun u => spawnCond 14400 u) = [] := by
    apply List.filter_eq_nil_iff.mpr
    intro t ht
    obtain ⟨k, hk, rfl⟩ := List.mem_map.mp ht
    simp only [spawnCond, decide_eq_true_eq]
    omega
  exact ⟨by rw [runStatic, fold_spawn_none 0 14400 tickTimes [] hf], hf⟩

/-! Claim C9 helpers. -/

/-- The per-key correspondence between two children maps that hold the same
sets: same key, value lists permutations of each other. -/
def childRel (e1 e2 : Waypoint × List Waypoint) : Prop :=
  e1.1 = e2.1 ∧ e1.2.Perm e2.2

theorem permNodup {α : Type} {l1 l2 : List α} (h : l1.Perm l2) (hn : l1.Nodup) : l2.Nodup :=
  h.nodup_iff.mp hn

theorem subpermNodup {α : Type} {l1 l2 : List α} (h : List.Subperm l1 l2) (hn : l2.Nodup) :
    l1.Nodup := by
  obtain ⟨l, hp, hs⟩ := h
  exact hp.nodup_iff.mp (hn.sublist hs)

theorem subpermMap {α β : Type} (f : α → β) {l1 l2 : List α} (h : List.Subperm l1 l2) :
    List.Subperm (l1.map f) (l2.map f) := by
  obtain ⟨l, hp, hs⟩ := h
  exact ⟨l.map f, hp.map f, hs.map f⟩

theorem alookup_append_of_none {κ α : Type} [DecidableEq κ] {m : List (κ × α)} (l : List (κ × α))
    (k : κ) (h : alookup m k = none) : alookup (m ++ l) k = alookup l k := by
  induction m with
  | nil => rfl
  | cons e rest ih =>
    obtain ⟨k0, v0⟩ := e
    by_cases h0 : k0 = k
    · simp [alookup, h0] at h
    · simp only [alookup, h0, if_false, List.cons_append] at h ⊢
      exact ih h

theorem get_root_nodes_fold :
    ∀ (roots : List Waypoint) (m : List (Nat × List Waypoint)),
      (roots.map Waypoint.node).Nodup →
      (∀ w ∈ roots, alookup m w.node = none) →
      roots.foldl
        (fun m w =>
          match alookup m w.node with
          | some s => aset m w.node (setInsert s w)
          | none => m ++ [(w.node, [w])])
        m =
        m ++ roots.map (fun w => (w.node, [w])) := by
  intro roots
  induction roots with
  | nil => intro m _ _; simp
  | cons w rest ih =>
    intro m hnd hnone
    have hw : alookup m w.node = none := hnone w (List.mem_cons_self _ _)
    have hnd' : (rest.map Waypoint.node).Nodup := by
      simp only [List.map_cons, List.nodup_cons] at hnd
      exact hnd.2
    have hwn : w.node ∉ rest.map Waypoint.node := by
      simp only [List.map_cons, List.nodup_cons] at hnd
      exact hnd.1
    have hnone' : ∀ w' ∈ rest, alookup (m ++ [(w.node, [w])]) w'.node = none := by
      intro w' hw'
      rw [alookup_append_of_none _ _ (hnone w' (List.mem_cons_of_mem _ hw'))]
      have : w.node ≠ w'.node := by
        intro hcontra
        exact hwn (hcontra ▸ List.mem_map_of_mem Waypoint.node hw')
      simp [alookup, this]
    simp only [List.foldl_cons, hw]
    rw [ih (m ++ [(w.node, [w])]) hnd' hnone']
    simp

theorem get_root_nodes_of_nodup (f : DirForest) (h : (f.roots.map Waypoint.node).Nodup) :
    f.get_root_nodes = f.roots.map (fun w => (w.node, [w])) := by
  have := get_root_nodes_fold f.roots [] h (by intro w _; rfl)
  simpa [DirForest.get_root_nodes] using this

theorem selFold_spec (g : Graph) (last : Nat) :
    ∀ (groups : List (Nat × List Waypoint)) (a0 : (Nat × List Waypoint) × Int),
      a0.2 = graph_distance g last a0.1.1 →
      ∃ a1,
        groups.foldl
            (fun best entry =>
              let d := graph_distance g last entry.1
              match best with
              | none => some (entry, d)
              | some be => if d < be.2 then some (entry, d) else best)
            (some a0) = some a1 ∧
          a1.2 = graph_distance g last a1.1.1 ∧ (a1 = a0 ∨ a1.1 ∈ groups) ∧ a1.2 ≤ a0.2 ∧
          ∀ e ∈ groups, a1.2 ≤ graph_distance g last e.1 := by
  intro groups
  induction groups with
  | nil => intro a0 h0; exact ⟨a0, rfl, h0, Or.inl rfl, le_refl _, by simp⟩
  | cons entry rest ih =>
    intro a0 h0
    by_cases hlt : graph_distance g last entry.1 < a0.2
    · obtain ⟨a1, hfold, h1, hmem, hle, hall⟩ :=
        ih (entry, graph_distance g last entry.1) rfl
      refine ⟨a1, ?_, h1, ?_, ?_, ?_⟩
      · simpa [hlt] using hfold
      · rcases hmem with rfl | hmem
        · exact Or.inr (List.mem_cons_self _ _)
        · exact Or.inr (List.mem_cons_of_mem _ hmem)
      · exact (lt_of_le_of_lt hle hlt).le
      · intro e he
        rcases List.mem_cons.mp he with rfl | he
        · exact hle
        · exact hall e he
    · obtain ⟨a1, hfold, h1, hmem, hle, hall⟩ := ih a0 h0
      refine ⟨a1, ?_, h1, ?_, hle, ?_⟩
      · simpa [hlt] using hfold
      · rcases hmem with rfl | hmem
        · exact Or.inl rfl
        · exact Or.inr (List.mem_cons_of_mem _ hmem)
      · intro e he
        rcases List.mem_cons.mp he with rfl | he
        · exact le_trans hle (not_lt.mp hlt)
        · exact hall e he

theorem selectBest_spec (g : Graph) (last : Nat) (groups : List (Nat × List Waypoint))
    (hne : groups ≠ []) :
    ∃ e, selectBest g last groups = some e ∧ e ∈ groups ∧
      ∀ e' ∈ groups, graph_distance g last e.1 ≤ graph_distance g last e'.1 := by
  cases groups with
  | nil => exact absurd rfl hne
  | cons h0 rest =>
    obtain ⟨a1, hfold, h1, hmem, hle, hall⟩ :=
      selFold_spec g last rest (h0, graph_distance g last h0.1) rfl
    refine ⟨a1.1, ?_, ?_, ?_⟩
    · simp only [selectBest, List.foldl_cons]
      rw [hfold]
      rfl
    · rcases hmem with rfl | hmem
      · exact List.mem_cons_self _ _
      · exact List.mem_cons_of_mem _ hmem
    · intro e' he'
      rcases List.mem_cons.mp he' with rfl | he'
      · exact h1 ▸ hle
      · exact h1 ▸ hall e' he'

theorem aremove_rel (w : Waypoint) :
    ∀ {c1 c2 : List (Waypoint × List Waypoint)}, List.Forall₂ childRel c1 c2 →
      (aremove c1 w = none ∧ aremove c2 w = none) ∨
        ∃ cs1 cs2 r1 r2, aremove c1 w = some (cs1, r1) ∧ aremove c2 w = some (cs2, r2) ∧
          cs1.Perm cs2 ∧ List.Forall₂ childRel r1 r2 := by
  intro c1 c2 h
  induction h with
  | nil => exact Or.inl ⟨rfl, rfl⟩
  | cons he htail ih =>
    rename_i e1 e2 t1 t2
    obtain ⟨hkey, hval⟩ := he
    obtain ⟨k1, v1⟩ := e1
    obtain ⟨k2, v2⟩ := e2
    simp only at hkey hval
    subst hkey
    by_cases hk : k1 = w
    · subst hk
      exact Or.inr ⟨v1, v2, t1, t2, by simp [aremove], by simp [aremove], hval, htail⟩
    · rcases ih with ⟨h1, h2⟩ | ⟨cs1, cs2, r1, r2, h1, h2, hperm, hrel⟩
      · exact Or.inl ⟨by simp [aremove, hk, h1], by simp [aremove, hk, h2]⟩
      · exact Or.inr ⟨cs1, cs2, (k1, v1) :: r1, (k1, v2) :: r2,
          by simp [aremove, hk, h1], by simp [aremove, hk, h2], hperm,
          List.Forall₂.cons ⟨rfl, hval⟩ hrel⟩

theorem aremove_decomp {κ α : Type} [DecidableEq κ] :
    ∀ (l : List (κ × α)) (k : κ) (v : α) (r : List (κ × α)),
      aremove l k = some (v, r) → ∃ pre post, l = pre ++ (k, v) :: post ∧ r = pre ++ post := by
  intro l
  induction l with
  | nil => intro k v r h; simp [aremove] at h
  | cons e rest ih =>
    intro k v r h
    obtain ⟨k0, v0⟩ := e
    by_cases hk : k0 = k
    · subst hk
      simp [aremove] at h
      exact ⟨[], rest, by simp [h.1], by simp [h.2]⟩
    · simp only [aremove, hk, if_false] at h
      cases hrec : aremove rest k with
      | none => rw [hrec] at h; simp at h
      | some pr =>
        obtain ⟨w0, r0⟩ := pr
        rw [hrec] at h
        simp only [Option.some.injEq, Prod.mk.injEq] at h
        obtain ⟨rfl, rfl⟩ := h
        obtain ⟨pre, post, hl, hr⟩ := ih k w0 r0 hrec
        exact ⟨(k0, v0) :: pre, post, by simp [hl], by simp [hr]⟩

theorem count_foldl_setInsert_le (x : Waypoint) :
    ∀ (cs base : List Waypoint),
      (cs.foldl setInsert base).count x ≤ base.count x + cs.count x := by
  intro cs
  induction cs with
  | nil => intro base; simp
  | cons c rest ih =>
    intro base
    have hstep : (setInsert base c).count x ≤ base.count x + [c].count x := by
      by_cases hmem : c ∈ base <;> simp [setInsert, hmem, List.count_append]
    calc ((c :: rest).foldl setInsert base).count x
        = (rest.foldl setInsert (setInsert base c)).count x := rfl
      _ ≤ (setInsert base c).count x + rest.count x := ih (setInsert base c)
      _ ≤ base.count x + [c].count x + rest.count x := by omega
      _ = base.count x + (c :: rest).count x := by
          simp [List.count_cons]
          omega

theorem visit_subperm (f : DirForest) (w : Waypoint) :
    List.Subperm (allWaypoints (f.visit_waypoint w)) (allWaypoints f) := by
  rw [List.subperm_ext_iff]
  intro x _
  simp only [DirForest.visit_waypoint]
  cases hrem : aremove f.children w with
  | none =>
    simp only [allWaypoints, List.count_append]
    have : ((f.roots.filter (fun y => decide (y ≠ w))).count x ≤ f.roots.count x) :=
      (List.filter_sublist _).count_le x
    omega
  | some pr =>
    obtain ⟨cs, r⟩ := pr
    obtain ⟨pre, post, hl, hr⟩ := aremove_decomp f.children w cs r hrem
    have hflat1 : ((f.children.map (fun e => e.2)).flatten).count x =
        ((pre.map (fun e => e.2)).flatten).count x + cs.count x +
          ((post.map (fun e => e.2)).flatten).count x := by
      rw [hl]
      simp [List.count_append]
      omega
    have hflat2 : ((r.map (fun e => e.2)).flatten).count x =
        ((pre.map (fun e => e.2)).flatten).count x +
          ((post.map (fun e => e.2)).flatten).count x := by
      rw [hr]
      simp [List.count_append]
    have hfoldle := count_foldl_setInsert_le x cs (f.roots.filter (fun y => decide (y ≠ w)))
    have hfilter : ((f.roots.filter (fun y => decide (y ≠ w))).count x ≤ f.roots.count x) :=
      (List.filter_sublist _).count_le x
    simp only [allWaypoints, List.count_append]
    omega

theorem foldl_setInsert_append :
    ∀ (cs base : List Waypoint), (∀ c ∈ cs, c ∉ base) → cs.Nodup →
      cs.foldl setInsert base = base ++ cs := by
  intro cs
  induction cs with
  | nil => intro base _ _; simp
  | cons c rest ih =>
    intro base hdis hnd
    have hc : c ∉ base := hdis c (List.mem_cons_self _ _)
    have hstep : setInsert base c = base ++ [c] := by simp [setInsert, hc]
    have hdis' : ∀ c' ∈ rest, c' ∉ base ++ [c] := by
      intro c' hc' hmem
      rcases List.mem_append.mp hmem with hmem | hmem
      · exact hdis c' (List.mem_cons_of_mem _ hc') hmem
      · rcases List.mem_singleton.mp hmem with rfl
        exact (List.nodup_cons.mp hnd).1 hc'
    calc ((c :: rest).foldl setInsert base) = rest.foldl setInsert (base ++ [c]) := by
          simp [hstep]
      _ = (base ++ [c]) ++ rest := ih (base ++ [c]) hdis' (List.nodup_cons.mp hnd).2
      _ = base ++ (c :: rest) := by simp

theorem forall2_values_sum_eq :
    ∀ {c1 c2 : List (Waypoint × List Waypoint)}, List.Forall₂ childRel c1 c2 →
      ((c1.map (fun e => e.2.length)).sum = (c2.map (fun e => e.2.length)).sum) := by
  intro c1 c2 h
  induction h with
  | nil => rfl
  | cons he _ ih =>
    simp only [List.map_cons, List.sum_cons, ih, he.2.length_eq]

theorem totalCount_eq (f1 f2 : DirForest) (hr : f1.roots.Perm f2.roots)
    (hc : List.Forall₂ childRel f1.children f2.children) : totalCount f1 = totalCount f2 := by
  simp only [totalCount, hr.length_eq, forall2_values_sum_eq hc]

theorem createOrderingLoop_det (g : Graph) (start : Nat) (W : List Waypoint)
    (hN : (W.map Waypoint.node).Nodup)
    (htie : ∀ a ∈ start :: W.map Waypoint.node, ∀ u ∈ W.map Waypoint.node,
      ∀ v ∈ W.map Waypoint.node, u ≠ v → graph_distance g a u ≠ graph_distance g a v) :
    ∀ (fuel last : Nat) (f1 f2 : DirForest),
      List.Subperm (allWaypoints f1) W →
      (last = start ∨ last ∈ W.map Waypoint.node) →
      f1.roots.Perm f2.roots →
      List.Forall₂ childRel f1.children f2.children →
      createOrderingLoop g fuel last f1 = createOrderingLoop g fuel last f2 := by
  intro fuel
  induction fuel with
  | zero => intro last f1 f2 _ _ _ _; rfl
  | succ n ih =>
    intro last f1 f2 hsub hlast hroots hch
    by_cases hemp : f1.roots.isEmpty
    · have hemp2 : f2.roots.isEmpty := by
        rw [List.isEmpty_iff] at hemp ⊢
        exact List.Perm.eq_nil (hemp ▸ hroots.symm)
      simp [createOrderingLoop, hemp, hemp2]
    · have hemp2 : ¬ f2.roots.isEmpty := by
        rw [List.isEmpty_iff] at hemp ⊢
        intro hc
        exact hemp (List.Perm.eq_nil (hc ▸ hroots))
      -- node-nodup facts
      have hAll : ((allWaypoints f1).map Waypoint.node).Nodup :=
        subpermNodup (subpermMap Waypoint.node hsub) hN
      have hsplit : ((f1.roots.map Waypoint.node) ++
          (((f1.children.map (fun e => e.2)).flatten).map Waypoint.node)).Nodup := by
        simpa [allWaypoints] using hAll
      have rootsN1 : (f1.roots.map Waypoint.node).Nodup := (List.nodup_append.mp hsplit).1
      have flatN1 : ((((f1.children.map (fun e => e.2)).flatten).map Waypoint.node)).Nodup :=
        (List.nodup_append.mp hsplit).2.1
      have disj1 : (f1.roots.map Waypoint.node).Disjoint
          ((((f1.children.map (fun e => e.2)).flatten).map Waypoint.node)) :=
        (List.nodup_append.mp hsplit).2.2
      have rootsN2 : (f2.roots.map Waypoint.node).Nodup :=
        permNodup (hroots.map Waypoint.node) rootsN1
      -- the grouped root maps
      have hG1 : f1.get_root_nodes = f1.roots.map (fun w => (w.node, [w])) :=
        get_root_nodes_of_nodup f1 rootsN1
      have hG2 : f2.get_root_nodes = f2.roots.map (fun w => (w.node, [w])) :=
        get_root_nodes_of_nodup f2 rootsN2
      have hGperm : (f1.get_root_nodes).Perm (f2.get_root_nodes) := by
        rw [hG1, hG2]
        exact hroots.map _
      have hne1 : f1.get_root_nodes ≠ [] := by
        rw [hG1]
        intro hcontra
        rw [List.map_eq_nil_iff] at hcontra
        rw [List.isEmpty_iff] at hemp
        exact hemp hcontra
      have hne2 : f2.get_root_nodes ≠ [] := by
        intro hcontra
        exact hne1 (List.Perm.eq_nil (hcontra ▸ hGperm))
      obtain ⟨e1, hsel1, hmem1, hmin1⟩ := selectBest_spec g last f1.get_root_nodes hne1
      obtain ⟨e2, hsel2, hmem2, hmin2⟩ := selectBest_spec g last f2.get_root_nodes hne2
      -- the two selections agree
      obtain ⟨w1, hw1, he1⟩ := List.mem_map.mp (hG1 ▸ hmem1)
      obtain ⟨w2, hw2, he2⟩ := List.mem_map.mp (hG2 ▸ hmem2)
      have hw1W : w1.node ∈ W.map Waypoint.node := by
        apply List.mem_map_of_mem
        exact hsub.subset (by simp [allWaypoints, hw1])
      have hw2r1 : w2 ∈ f1.roots := hroots.mem_iff.mpr hw2
      have hw2W : w2.node ∈ W.map Waypoint.node := by
        apply List.mem_map_of_mem
        exact hsub.subset (by simp [allWaypoints, hw2r1])
      have hd12 : graph_distance g last e1.1 = graph_distance g last e2.1 := by
        have h1 := hmin1 e2 (hGperm.mem_iff.mpr hmem2)
        have h2 := hmin2 e1 (hGperm.mem_iff.mp hmem1)
        omega
      have he12 : e1 = e2 := by
        by_cases hnodes : w1.node = w2.node
        · have hww : w1 = w2 := List.inj_on_of_nodup_map rootsN1 hw1 hw2r1 hnodes
          rw [← he1, ← he2, hww]
        · exfalso
          apply htie last (by rcases hlast with rfl | h; exacts [List.mem_cons_self _ _,
              List.mem_cons_of_mem _ h]) w1.node hw1W w2.node hw2W hnodes
          rw [← he1] at hd12
          rw [← he2] at hd12
          exact hd12
      -- the chosen waypoint
      have hw12 : w1 = w2 := by
        rw [← he1, ← he2] at he12
        simp only [Prod.mk.injEq, List.cons.injEq, and_true] at he12
        exact he12.2
      subst hw12
      -- unfold one loop step on each side
      have hstep1 : createOrderingLoop g (n + 1) last f1 =
          [w1] ++ createOrderingLoop g n w1.node (DirForest.visit_waypoint f1 w1) := by
        simp only [createOrderingLoop]
        rw [if_neg hemp, hsel1, ← he1]
        rfl
      have hstep2 : createOrderingLoop g (n + 1) last f2 =
          [w1] ++ createOrderingLoop g n w1.node (DirForest.visit_waypoint f2 w1) := by
        simp only [createOrderingLoop]
        rw [if_neg hemp2, hsel2, ← he12, ← he1]
        rfl
      rw [hstep1, hstep2]
      -- the visited forests stay related
      have hvisit : (DirForest.visit_waypoint f1 w1).roots.Perm
            (DirForest.visit_waypoint f2 w1).roots ∧
          List.Forall₂ childRel (DirForest.visit_waypoint f1 w1).children
            (DirForest.visit_waypoint f2 w1).children := by
        rcases aremove_rel w1 hch with ⟨h1, h2⟩ | ⟨cs1, cs2, r1, r2, h1, h2, hperm, hrel⟩
        · constructor
          · simp only [DirForest.visit_waypoint, h1, h2]
            exact hroots.filter _
          · simp only [DirForest.visit_waypoint, h1, h2]
            exact hch
        · obtain ⟨pre, post, hdec, hrdec⟩ := aremove_decomp f1.children w1 cs1 r1 h1
          have hcs1sub : List.Sublist cs1 ((f1.children.map (fun e => e.2)).flatten) := by
            rw [hdec]
            simp only [List.map_append, List.map_cons, List.flatten_append, List.flatten_cons]
            exact (List.sublist_append_left cs1 ((post.map (fun e => e.2)).flatten)).trans
              (List.sublist_append_right _ _)
          have hcs1nodes : (cs1.map Waypoint.node).Nodup :=
            flatN1.sublist (hcs1sub.map Waypoint.node)
          have hcs1nd : cs1.Nodup := hcs1nodes.of_map
          have hcs2nd : cs2.Nodup := permNodup hperm hcs1nd
          have hdisj : ∀ c ∈ cs1, c ∉ f1.roots := by
            intro c hc1 hcr
            exact disj1 (List.mem_map_of_mem Waypoint.node hcr)
              (List.mem_map_of_mem Waypoint.node (hcs1sub.subset hc1))
          have hfold1 : cs1.foldl setInsert (f1.roots.filter (fun y => decide (y ≠ w1))) =
              (f1.roots.filter (fun y => decide (y ≠ w1))) ++ cs1 := by
            apply foldl_setInsert_append cs1 _ _ hcs1nd
            intro c hc1 hcf
            exact hdisj c hc1 (List.mem_of_mem_filter hcf)
          have hfold2 : cs2.foldl setInsert (f2.roots.filter (fun y => decide (y ≠ w1))) =
              (f2.roots.filter (fun y => decide (y ≠ w1))) ++ cs2 := by
            apply foldl_setInsert_append cs2 _ _ hcs2nd
            intro c hc2 hcf
            have hc1 : c ∈ cs1 := hperm.mem_iff.mpr hc2
            have : c ∈ f1.roots := hroots.mem_iff.mpr (List.mem_of_mem_filter hcf)
            exact hdisj c hc1 this
          constructor
          · simp only [DirForest.visit_waypoint, h1, h2, hfold1, hfold2]
            exact (hroots.filter _).append hperm
          · simp only [DirForest.visit_waypoint, h1, h2]
            exact hrel
      obtain ⟨hroots', hch'⟩ := hvisit
      have hsub' : List.Subperm (allWaypoints (DirForest.visit_waypoint f1 w1)) W :=
        (visit_subperm f1 w1).trans hsub
      exact congrArg (fun l => [w1] ++ l)
        (ih w1.node (DirForest.visit_waypoint f1 w1) (DirForest.visit_waypoint f2 w1)
          hsub' (Or.inr hw1W) hroots' hch')

/-- Claim C9 (amended): create_ordering is a deterministic function of the
forest together with the hash containers' iteration orders; as stated the
claim fails because ties in the squared-distance selection are broken by
HashMap iteration order (see the counterexample).  When no two waypoints
share a node and no two distinct candidate nodes are ever equidistant from
a previous position, the ordering is independent of those iteration
orders: two copies of the same forest — roots in any order, each child set
in any order — yield the same sequence. -/
theorem c9_ordering_deterministic_amended (g : Graph) (start : Nat) (f1 f2 : DirForest)
    (hN : ((allWaypoints f1).map Waypoint.node).Nodup)
    (htie : ∀ a ∈ start :: (allWaypoints f1).map Waypoint.node,
      ∀ u ∈ (allWaypoints f1).map Waypoint.node,
      ∀ v ∈ (allWaypoints f1).map Waypoint.node,
      u ≠ v → graph_distance g a u ≠ graph_distance g a v)
    (hroots : f1.roots.Perm f2.roots)
    (hch : List.Forall₂ childRel f1.children f2.children) :
    create_ordering g start f1 = create_ordering g start f2 := by
  have hcount : totalCount f1 = totalCount f2 := totalCount_eq f1 f2 hroots hch
  simp only [create_ordering, hcount]
  congr 1
  exact createOrderingLoop_det g start (allWaypoints f1) hN htie (totalCount f2 + 1) start
    f1 f2 (List.Subperm.refl _) (Or.inl rfl) hroots hch

/-- Witness for C9: the same two-root forest in both orders, with all
pairwise distances distinct, sequences identically. -/
theorem c9_ordering_deterministic_amended_witness :
    (((allWaypoints f9a).map Waypoint.node).Nodup ∧ f9a.roots.Perm f9b.roots) ∧
      create_ordering g9d 0 f9a = create_ordering g9d 0 f9b :=
  ⟨⟨by decide, by decide⟩,
    c9_ordering_deterministic_amended g9d 0 f9a f9b (by decide) (by decide) (by decide)
      (List.Forall₂.nil)⟩

/-- Claim C9 counterexample: two copies of the same forest (the same root
set, iterated in different orders) on a graph where nodes 1 and 2 are
equidistant from the start produce different waypoint sequences, so
create_ordering is not deterministic as claimed. -/
theorem c9_counterexample :
    f9a.roots.Perm f9b.roots ∧ f9a.children = f9b.children ∧
      create_ordering g9 0 f9a ≠ create_ordering g9 0 f9b := by
  decide

/-! Dijkstra correctness: binary-heap lemmas. -/

theorem stLtb_irrefl (a : St) : stLtb a a = false := by
  simp [stLtb]

theorem stLtb_eq_true_iff (a b : St) :
    stLtb a b = true ↔ (b.dist < a.dist ∨ (b.dist = a.dist ∧ a.node < b.node)) := by
  simp [stLtb]

theorem stLtb_eq_false_iff (a b : St) :
    stLtb a b = false ↔ (a.dist ≤ b.dist ∧ (b.dist = a.dist → b.node ≤ a.node)) := by
  rw [← Bool.not_eq_true, stLtb_eq_true_iff]
  omega

theorem stLtb_trans1 (x y r : St) (h1 : stLtb x y = true) (h2 : stLtb r y = false) :
    stLtb r x = false := by
  rw [stLtb_eq_true_iff] at h1
  rw [stLtb_eq_false_iff] at h2 ⊢
  omega

theorem stLtb_trans2 (x y r : St) (h1 : stLtb x y = false) (h2 : stLtb r x = false) :
    stLtb r y = false := by
  rw [stLtb_eq_false_iff] at h1 h2 ⊢
  omega

theorem heapMax_spec :
    ∀ (xs : List St) (x : St),
      (heapMax x xs = x ∨ heapMax x xs ∈ xs) ∧ stLtb (heapMax x xs) x = false ∧
        ∀ y ∈ xs, stLtb (heapMax x xs) y = false := by
  intro xs
  induction xs with
  | nil => intro x; exact ⟨Or.inl rfl, stLtb_irrefl x, by simp⟩
  | cons y ys ih =>
    intro x
    by_cases hxy : stLtb x y = true
    · have hstep : heapMax x (y :: ys) = heapMax y ys := by
        simp [heapMax, hxy]
      obtain ⟨hmem, hacc, hall⟩ := ih y
      rw [hstep]
      refine ⟨?_, ?_, ?_⟩
      · rcases hmem with h | h
        · exact Or.inr (by rw [h]; exact List.mem_cons_self _ _)
        · exact Or.inr (List.mem_cons_of_mem _ h)
      · exact stLtb_trans1 x y _ hxy hacc
      · intro z hz
        rcases List.mem_cons.mp hz with rfl | hz
        · exact hacc
        · exact hall z hz
    · have hxy' : stLtb x y = false := Bool.eq_false_iff.mpr hxy
      have hstep : heapMax x (y :: ys) = heapMax x ys := by
        simp [heapMax, hxy']
      obtain ⟨hmem, hacc, hall⟩ := ih x
      rw [hstep]
      refine ⟨?_, hacc, ?_⟩
      · rcases hmem with h | h
        · exact Or.inl h
        · exact Or.inr (List.mem_cons_of_mem _ h)
      · intro z hz
        rcases List.mem_cons.mp hz with rfl | hz
        · exact stLtb_trans2 x z _ hxy' hacc
        · exact hall z hz

theorem popMax_none (h : List St) : popMax h = none ↔ h = [] := by
  cases h <;> simp [popMax]

theorem popMax_spec (h : List St) (m : St) (rest : List St) (hp : popMax h = some (m, rest)) :
    m ∈ h ∧ rest = h.erase m ∧ ∀ y ∈ h, stLtb m y = false := by
  cases h with
  | nil => simp [popMax] at hp
  | cons x xs =>
    simp only [popMax, Option.some.injEq, Prod.mk.injEq] at hp
    obtain ⟨hm, hrest⟩ := hp
    obtain ⟨hmem, hacc, hall⟩ := heapMax_spec xs x
    subst hm
    refine ⟨?_, hrest.symm, ?_⟩
    · rcases hmem with h | h
      · rw [h]; exact List.mem_cons_self _ _
      · exact List.mem_cons_of_mem _ h
    · intro y hy
      rcases List.mem_cons.mp hy with rfl | hy
      · exact hacc
      · exact hall y hy

theorem pairwise_count_le_one {α : Type} [DecidableEq α] {R : α → α → Prop} :
    ∀ {l : List α}, l.Pairwise R → ∀ a : α, ¬ R a a → l.count a ≤ 1 := by
  intro l h
  induction h with
  | nil => intro a _; simp
  | cons hx hxs ih =>
    rename_i x xs
    intro a hR
    by_cases hxa : x = a
    · subst hxa
      have hnot : x ∉ xs := fun hmem => hR (hx x hmem)
      simp [List.count_cons, List.count_eq_zero_of_not_mem hnot]
    · have hb : (x == a) = false := beq_eq_false_iff_ne.mpr hxa
      have hb' : (a == x) = false := beq_eq_false_iff_ne.mpr (fun hc => hxa hc.symm)
      simp only [List.count_cons, hb, hb', Bool.false_eq_true, if_false]
      have := ih a hR
      omega

/-! Association list facts used by the prev-map reasoning. -/

theorem alookup_none_iff {κ α : Type} [DecidableEq κ] :
    ∀ (l : List (κ × α)) (k : κ), alookup l k = none ↔ k ∉ l.map Prod.fst := by
  intro l
  induction l with
  | nil => intro k; simp [alookup]
  | cons e rest ih =>
    intro k
    obtain ⟨k0, v0⟩ := e
    by_cases h : k0 = k
    · subst h
      simp [alookup]
    · have hne : ¬ k = k0 := fun hc => h hc.symm
      have h1 : alookup ((k0, v0) :: rest) k = alookup rest k := by simp [alookup, h]
      rw [h1, ih k]
      simp [hne]

theorem aset_map_fst {κ α : Type} [DecidableEq κ] :
    ∀ (l : List (κ × α)) (k : κ) (v : α),
      ((aset l k v).map Prod.fst = l.map Prod.fst ∧ k ∈ l.map Prod.fst) ∨
        ((aset l k v).map Prod.fst = l.map Prod.fst ++ [k] ∧ k ∉ l.map Prod.fst) := by
  intro l
  induction l with
  | nil => intro k v; exact Or.inr ⟨rfl, by simp⟩
  | cons e rest ih =>
    intro k v
    obtain ⟨k0, v0⟩ := e
    by_cases h : k0 = k
    · subst h
      exact Or.inl ⟨by simp [aset], by simp⟩
    · rcases ih k v with ⟨h1, h2⟩ | ⟨h1, h2⟩
      · exact Or.inl ⟨by simp [aset, h, h1], by simp [h2]⟩
      · refine Or.inr ⟨by simp [aset, h, h1], ?_⟩
        simp only [List.map_cons, List.mem_cons]
        rintro (hc | hc)
        · exact h hc.symm
        · exact h2 hc

theorem indexOf_concat_self (s : List Nat) (u : Nat) (h : u ∉ s) :
    (s ++ [u]).indexOf u = s.length := by
  induction s with
  | nil => simp
  | cons b t ih =>
    have hb : b ≠ u := fun hc => h (hc ▸ List.mem_cons_self b t)
    have hbu : (b == u) = false := beq_eq_false_iff_ne.mpr hb
    simp only [List.cons_append, List.indexOf_cons, hbu, cond_false,
      ih (fun hc => h (List.mem_cons_of_mem b hc)), List.length_cons]

/-! Walk trace facts. -/

theorem reach_ne_nil {g : Graph} {source v d : Nat} {l : List Nat}
    (h : ReachesL g source v d l) : l ≠ [] := by
  induction h with
  | refl => simp
  | snoc h e he ih => simp

theorem reach_head {g : Graph} {source v d : Nat} {l : List Nat}
    (h : ReachesL g source v d l) : l.head? = some source := by
  induction h with
  | refl => rfl
  | snoc h e he ih =>
    rename_i u d' l'
    cases l' with
    | nil => simp at ih
    | cons a t => simpa using ih

theorem reach_last {g : Graph} {source v d : Nat} {l : List Nat}
    (h : ReachesL g source v d l) : l.getLast? = some v := by
  induction h with
  | refl => rfl
  | snoc h e he ih => exact List.getLast?_concat _

/-! One edge relaxation preserves the processing invariant. -/

theorem otherEnd_mem (g : Graph) (hwf : WF g) (u : Nat) (hu : u ∈ g.nodes) (e : Nat)
    (he : e ∈ g.adjacency u) : otherEnd g u e ∈ g.nodes := by
  obtain ⟨hor, hstart, hend⟩ := hwf.2 u hu e he
  unfold otherEnd
  by_cases h : (g.edges e).start_id = u <;> simp [h, hstart, hend]

theorem le_sum_of_mem {α : Type} (f : α → Nat) :
    ∀ {l : List α} {x : α}, x ∈ l → f x ≤ (l.map f).sum := by
  intro l
  induction l with
  | nil => intro x hx; simp at hx
  | cons a t ih =>
    intro x hx
    rcases List.mem_cons.mp hx with rfl | hx
    · simp
    · simp only [List.map_cons, List.sum_cons]
      have := ih hx
      omega

theorem sublist_sum_le {l1 l2 : List Nat} (h : List.Sublist l1 l2) : l1.sum ≤ l2.sum := by
  induction h with
  | slnil => exact le_refl _
  | cons a h ih => simp only [List.sum_cons]; omega
  | cons₂ a h ih => simp only [List.sum_cons]; omega

theorem subperm_sum_le {l1 l2 : List Nat} (h : List.Subperm l1 l2) : l1.sum ≤ l2.sum := by
  obtain ⟨l, hp, hs⟩ := h
  rw [← hp.sum_eq]
  exact sublist_sum_le hs

theorem edgeSumOver_append (g : Graph) (S : List Nat) (u : Nat) :
    edgeSumOver g (S ++ [u]) =
      edgeSumOver g S + ((g.adjacency u).map (fun e => (g.edges e).length)).sum := by
  simp [edgeSumOver]

theorem relaxEdge_pinv (g : Graph) (source dest u du : Nat) (S : List Nat) (s : DState)
    (hwf : WF g) (hp : PInv g source dest u du S s) (e : Nat) (he : e ∈ g.adjacency u) :
    PInv g source dest u du S (relaxEdge g u du s e) ∧
      (relaxEdge g u du s e).dist (otherEnd g u e) ≤ du + (g.edges e).length ∧
      (∀ x, (relaxEdge g u du s e).dist x ≤ s.dist x) ∧
      (relaxEdge g u du s e).heap.length ≤ s.heap.length + 1 := by
  have hlenle : (g.edges e).length ≤
      ((g.adjacency u).map (fun e' => (g.edges e').length)).sum :=
    le_sum_of_mem (fun e' => (g.edges e').length) he
  have hndsum : du + (g.edges e).length ≤ edgeSumOver g S := by
    have := hp.duBound
    omega
  have hmod : (du + (g.edges e).length) % 4294967296 = du + (g.edges e).length := by
    apply Nat.mod_eq_of_lt
    have h1 := hp.sumLe
    have h2 : UMAX = 4294967295 := rfl
    omega
  by_cases hlt : du + (g.edges e).length < s.dist (otherEnd g u e)
  case neg =>
    have hs' : relaxEdge g u du s e = s := by
      simp [relaxEdge, hmod, hlt]
    rw [hs']
    exact ⟨hp, not_lt.mp hlt, fun x => le_refl _, by omega⟩
  case pos =>
    have hs' : relaxEdge g u du s e =
        { dist := fun x => if x = otherEnd g u e then du + (g.edges e).length else s.dist x
          prev := aset s.prev (otherEnd g u e) u
          heap := ⟨otherEnd g u e, du + (g.edges e).length⟩ :: s.heap } := by
      simp [relaxEdge, hmod, hlt]
    have hdist' : ∀ x, (relaxEdge g u du s e).dist x =
        if x = otherEnd g u e then du + (g.edges e).length else s.dist x := by
      intro x; rw [hs']
    have hprev' : (relaxEdge g u du s e).prev = aset s.prev (otherEnd g u e) u := by
      rw [hs']
    have hheap' : (relaxEdge g u du s e).heap =
        ⟨otherEnd g u e, du + (g.edges e).length⟩ :: s.heap := by
      rw [hs']
    have hunodes : u ∈ g.nodes := hp.sMem u hp.uMem
    have hvnodes : otherEnd g u e ∈ g.nodes := otherEnd_mem g hwf u hunodes e he
    have hdu_lt : s.dist u < UMAX := by rw [hp.distU]; exact hp.duLt
    obtain ⟨lu, hlu⟩ := hp.realize u hdu_lt
    have hreachv : ReachesL g source (otherEnd g u e) (du + (g.edges e).length)
        (lu ++ [otherEnd g u e]) := by
      have h0 := hlu.snoc e he
      rwa [hp.distU] at h0
    have hvS : otherEnd g u e ∉ S := by
      intro hvS
      obtain ⟨hvlt, hopt⟩ := hp.closedOpt _ hvS
      have := hopt.2 _ _ hreachv
      omega
    have hvu : otherEnd g u e ≠ u := fun hc => hvS (by rw [hc]; exact hp.uMem)
    have hsv : source ≠ otherEnd g u e := by
      intro hc
      rw [← hc, hp.dsrc] at hlt
      omega
    have hndU : du + (g.edges e).length < UMAX :=
      lt_of_lt_of_le hlt (hp.distLe (otherEnd g u e))
    have hSne : ∀ w ∈ S, w ≠ otherEnd g u e := fun w hw hc => hvS (hc ▸ hw)
    refine ⟨⟨⟨hp.snodup, hp.sMem, ?_, ?_, ?_, ?_, ?_, ?_, ?_, ?_, ?_⟩,
        hp.uMem, hp.duLt, ?_, hp.duBound, hp.sumLe, ?_, ?_, ?_, ?_, ?_, ?_,
        hp.destNotS⟩, ?_, ?_, ?_⟩
    -- dsrc
    · rw [hdist' source, if_neg hsv, hp.dsrc]
    -- distLe
    · intro x
      rw [hdist' x]
      by_cases hx : x = otherEnd g u e
      · rw [if_pos hx]; exact le_of_lt hndU
      · rw [if_neg hx]; exact hp.distLe x
    -- realize
    · intro x hx
      rw [hdist' x] at hx ⊢
      by_cases hxv : x = otherEnd g u e
      · subst hxv
        rw [if_pos rfl]
        exact ⟨lu ++ [otherEnd g u e], hreachv⟩
      · rw [if_neg hxv] at hx ⊢
        exact hp.realize x hx
    -- closedOpt
    · intro w hw
      have hwv := hSne w hw
      rw [hdist' w, if_neg hwv]
      exact hp.closedOpt w hw
    -- prevSrc
    · rw [hprev', alookup_aset_ne s.prev (otherEnd g u e) source u hsv]
      exact hp.prevSrc
    -- prevKeys
    · intro w hwsrc
      by_cases hwv : w = otherEnd g u e
      · subst hwv
        rw [hprev', alookup_aset_self, hdist' _, if_pos rfl]
        simp [hndU]
      · rw [hprev', alookup_aset_ne _ _ _ _ hwv, hdist' w, if_neg hwv]
        exact hp.prevKeys w hwsrc
    -- prevStep
    · intro w p hlook hwsrc
      rw [hprev'] at hlook
      by_cases hwv : w = otherEnd g u e
      · subst hwv
        rw [alookup_aset_self] at hlook
        have hpu := Option.some.inj hlook
        subst hpu
        refine ⟨hp.uMem, ⟨e, he, rfl, ?_⟩, fun hvS' => absurd hvS' hvS⟩
        rw [hdist' _, if_pos rfl, hdist' u, if_neg hvu.symm]
        rw [hp.distU]
      · rw [alookup_aset_ne _ _ _ _ hwv] at hlook
        obtain ⟨hpS, ⟨e', he', hoe', hdd⟩, hidx⟩ := hp.prevStep w p hlook hwsrc
        have hpv : p ≠ otherEnd g u e := hSne p hpS
        refine ⟨hpS, ⟨e', he', hoe', ?_⟩, hidx⟩
        rw [hdist' w, if_neg hwv, hdist' p, if_neg hpv]
        exact hdd
    -- prevNodup
    · rw [hprev']
      rcases aset_map_fst s.prev (otherEnd g u e) u with ⟨heq, _⟩ | ⟨heq, hmem⟩
      · rw [heq]; exact hp.prevNodup
      · rw [heq]
        refine List.Nodup.append hp.prevNodup (by simp) ?_
        intro a ha hb
        rw [List.mem_singleton.mp hb] at ha
        exact hmem ha
    -- distFin
    · intro x hx
      rw [hdist' x] at hx ⊢
      by_cases hxv : x = otherEnd g u e
      · rw [if_pos hxv] at hx ⊢
        exact hndsum
      · rw [if_neg hxv] at hx ⊢
        exact hp.distFin x hx
    -- distU
    · rw [hdist' u, if_neg hvu.symm]
      exact hp.distU
    -- heapBound
    · intro st hst
      rw [hheap'] at hst
      rcases List.mem_cons.mp hst with rfl | hst
      · refine ⟨?_, hndU, hvnodes⟩
        rw [hdist' _, if_pos rfl]
      · obtain ⟨h1, h2, h3⟩ := hp.heapBound st hst
        refine ⟨?_, h2, h3⟩
        rw [hdist' st.node]
        by_cases hsv2 : st.node = otherEnd g u e
        · rw [if_pos hsv2]
          rw [hsv2] at h1
          omega
        · rw [if_neg hsv2]; exact h1
    -- heapCover
    · intro w hwS hwlt
      rw [hheap']
      rw [hdist' w] at hwlt ⊢
      by_cases hwv : w = otherEnd g u e
      · subst hwv
        rw [if_pos rfl]
        exact List.mem_cons_self _ _
      · rw [if_neg hwv] at hwlt ⊢
        exact List.mem_cons_of_mem _ (hp.heapCover w hwS hwlt)
    -- heapVals
    · rw [hheap']
      refine List.Pairwise.cons ?_ hp.heapVals
      intro st hst heq
      obtain ⟨h1, _, _⟩ := hp.heapBound st hst
      have heq' : otherEnd g u e = st.node := heq
      rw [← heq'] at h1
      show du + (g.edges e).length ≠ st.dist
      omega
    -- heapClosed
    · intro st hst hstS
      rw [hheap'] at hst
      rcases List.mem_cons.mp hst with rfl | hst
      · exact absurd hstS hvS
      · have h1 := hp.heapClosed st hst hstS
        rw [hdist' st.node]
        by_cases h2 : st.node = otherEnd g u e
        · rw [if_pos h2]
          rw [h2] at h1
          omega
        · rw [if_neg h2]; exact h1
    -- heapSource
    · rcases hp.heapSource with h | h
      · exact Or.inl h
      · rw [hheap']
        exact Or.inr (List.mem_cons_of_mem _ h)
    -- closedRelaxedOld
    · intro w hw hwu e' he'
      have h1 := hp.closedRelaxedOld w hw hwu e' he'
      have hwv : w ≠ otherEnd g u e := hSne w hw
      rw [hdist' (otherEnd g w e'), hdist' w, if_neg hwv]
      by_cases h2 : otherEnd g w e' = otherEnd g u e
      · rw [if_pos h2]
        rw [h2] at h1
        omega
      · rw [if_neg h2]; exact h1
    -- the relaxed edge's bound
    · rw [hdist' _, if_pos rfl]
    -- monotonicity
    · intro x
      rw [hdist' x]
      by_cases h : x = otherEnd g u e
      · rw [if_pos h, h]
        exact le_of_lt hlt
      · rw [if_neg h]
    -- heap length
    · rw [hheap']
      simp

/-- Folding the relaxation over any tail of the adjacency list preserves the
processing invariant, relaxes every listed edge, never increases any label,
and grows the heap by at most one entry per edge. -/
theorem relaxFold_pinv (g : Graph) (source dest u du : Nat) (S : List Nat) (hwf : WF g) :
    ∀ (todo : List Nat), (∀ e ∈ todo, e ∈ g.adjacency u) → ∀ s, PInv g source dest u du S s →
      PInv g source dest u du S (todo.foldl (relaxEdge g u du) s) ∧
        (∀ e ∈ todo,
          (todo.foldl (relaxEdge g u du) s).dist (otherEnd g u e) ≤ du + (g.edges e).length) ∧
        (∀ x, (todo.foldl (relaxEdge g u du) s).dist x ≤ s.dist x) ∧
        (todo.foldl (relaxEdge g u du) s).heap.length ≤ s.heap.length + todo.length := by
  intro todo
  induction todo with
  | nil =>
    intro _ s hp
    exact ⟨hp, by simp, fun x => le_refl _, by simp⟩
  | cons e rest ih =>
    intro hmem s hp
    obtain ⟨hp1, hrel1, hmono1, hlen1⟩ :=
      relaxEdge_pinv g source dest u du S s hwf hp e (hmem e (List.mem_cons_self _ _))
    obtain ⟨hp2, hrel2, hmono2, hlen2⟩ :=
      ih (fun e' he' => hmem e' (List.mem_cons_of_mem _ he')) (relaxEdge g u du s e) hp1
    rw [List.foldl_cons]
    refine ⟨hp2, ?_, ?_, ?_⟩
    · intro e' he'
      rcases List.mem_cons.mp he' with rfl | he'
      · exact le_trans (hmono2 (otherEnd g u e')) hrel1
      · exact hrel2 e' he'
    · intro x
      exact le_trans (hmono2 x) (hmono1 x)
    · simp only [List.length_cons]
      omega

/-- The cut argument: at the moment an entry m is popped, any walk strictly
cheaper than m's key ends at a node whose label already undercuts it. -/
theorem cut_lemma (g : Graph) (source dest : Nat) (S : List Nat) (s : DState)
    (hinv : DInv g source dest S s) (m : St) (rest : List St)
    (hpop : popMax s.heap = some (m, rest)) :
    ∀ v d l, ReachesL g source v d l → d < m.dist → s.dist v ≤ d := by
  obtain ⟨hm, hrest, hmin⟩ := popMax_spec s.heap m rest hpop
  have hmU : m.dist < UMAX := (hinv.heapBound m hm).2.1
  intro v d l hwalk
  induction hwalk with
  | refl =>
    intro _
    rw [hinv.dsrc]
  | snoc hw e he ih =>
    rename_i u' d'' l''
    intro hlt
    have hih : s.dist u' ≤ d'' := ih (by omega)
    by_cases hu'S : u' ∈ S
    · have h1 := hinv.closedRelaxed u' hu'S e he
      omega
    · have hdu' : s.dist u' < UMAX := by omega
      have hcov := hinv.heapCover u' hu'S hdu'
      have h2 := hmin ⟨u', s.dist u'⟩ hcov
      rw [stLtb_eq_false_iff] at h2
      have h3 : m.dist ≤ s.dist u' := h2.1
      omega

/-- Closing a node moves its degree out of the unclosed-degree sum. -/
theorem sum_filter_close (g : Graph) (S : List Nat) (u : Nat) (hnd : g.nodes.Nodup)
    (hu : u ∈ g.nodes) (huS : u ∉ S) :
    ((g.nodes.filter (fun n => n ∉ S ++ [u])).map (fun n => (g.adjacency n).length)).sum
        + (g.adjacency u).length =
      ((g.nodes.filter (fun n => n ∉ S)).map (fun n => (g.adjacency n).length)).sum := by
  have h1 : g.nodes.filter (fun n => decide (n ∉ S ++ [u])) =
      (g.nodes.filter (fun n => decide (n ∉ S))).filter (fun n => n != u) := by
    rw [List.filter_filter]
    apply List.filter_congr
    intro n _
    by_cases h1 : n ∈ S <;> by_cases h2 : n = u <;> simp [h1, h2, List.mem_append]
  have hmemL : u ∈ g.nodes.filter (fun n => decide (n ∉ S)) :=
    List.mem_filter.mpr ⟨hu, by simp [huS]⟩
  have hndL : (g.nodes.filter (fun n => decide (n ∉ S))).Nodup := hnd.filter _
  have h2 : (g.nodes.filter (fun n => decide (n ∉ S))).filter (fun n => n != u) =
      (g.nodes.filter (fun n => decide (n ∉ S))).erase u :=
    (hndL.erase_eq_filter u).symm
  have h3 : (g.nodes.filter (fun n => decide (n ∉ S))).Perm
      (u :: (g.nodes.filter (fun n => decide (n ∉ S))).erase u) :=
    List.perm_cons_erase hmemL
  have h4 := (h3.map (fun n => (g.adjacency n).length)).sum_eq
  simp only [List.map_cons, List.sum_cons] at h4
  rw [h1, h2]
  omega

/-- Popping a non-stale entry for a node other than dest, closing the node and
relaxing its edges re-establishes the loop invariant on the extended closed
list and strictly decreases the termination measure. -/
theorem close_node (g : Graph) (source dest : Nat) (S : List Nat) (s : DState) (hwf : WF g)
    (hbound : edgeLenSum g ≤ UMAX)
    (hinv : DInv g source dest S s) (m : St) (rest : List St)
    (hpop : popMax s.heap = some (m, rest)) (hstale : ¬ s.dist m.node < m.dist)
    (hnd : m.node ≠ dest) :
    DInv g source dest (S ++ [m.node])
        (processNode g m.node m.dist { s with heap := rest }) ∧
      phi g (S ++ [m.node]) (processNode g m.node m.dist { s with heap := rest }) <
        phi g S s := by
  obtain ⟨hm, hrest, hmin⟩ := popMax_spec s.heap m rest hpop
  obtain ⟨hdm, hmU, hmnodes⟩ := hinv.heapBound m hm
  have hdu : s.dist m.node = m.dist := le_antisymm hdm (not_lt.mp hstale)
  have huS : m.node ∉ S := by
    intro hc
    exact absurd (hinv.heapClosed m hm hc) (by omega)
  have hleast : IsLeastDist g source m.node m.dist := by
    constructor
    · obtain ⟨l, hl⟩ := hinv.realize m.node (by omega)
      exact ⟨l, hdu ▸ hl⟩
    · intro d' l' hw
      by_cases hcase : d' < m.dist
      · have := cut_lemma g source dest S s hinv m rest hpop m.node d' l' hw hcase
        omega
      · omega
  have hmnotrest : m ∉ rest := by
    intro hc
    have hcount : s.heap.count m ≤ 1 :=
      pairwise_count_le_one hinv.heapVals m (fun h => (h rfl) rfl)
    have h1 : rest.count m = s.heap.count m - 1 := by
      rw [hrest]; exact List.count_erase_self m s.heap
    have h2 : 0 < rest.count m := List.count_pos_iff.mpr hc
    have h3 : 0 < s.heap.count m := List.count_pos_iff.mpr hm
    omega
  have hrestSub : ∀ st ∈ rest, st ∈ s.heap := by
    intro st hst
    rw [hrest] at hst
    exact List.mem_of_mem_erase hst
  have hS'nodup : (S ++ [m.node]).Nodup := by
    refine List.Nodup.append hinv.snodup (by simp) ?_
    intro a ha hb
    rw [List.mem_singleton.mp hb] at ha
    exact huS ha
  have hS'sub : ∀ w ∈ S ++ [m.node], w ∈ g.nodes := by
    intro w hw
    rcases List.mem_append.mp hw with hw | hw
    · exact hinv.sMem w hw
    · rw [List.mem_singleton.mp hw]; exact hmnodes
  have hsumle : edgeSumOver g (S ++ [m.node]) ≤ UMAX := by
    have hsp : List.Subperm (S ++ [m.node]) g.nodes := hS'nodup.subperm hS'sub
    have h1 := subperm_sum_le (subpermMap
      (fun n => ((g.adjacency n).map (fun e => (g.edges e).length)).sum) hsp)
    have h2 : edgeSumOver g (S ++ [m.node]) ≤ edgeLenSum g := h1
    omega
  have hdub : m.dist + ((g.adjacency m.node).map (fun e => (g.edges e).length)).sum ≤
      edgeSumOver g (S ++ [m.node]) := by
    have h1 := hinv.distFin m.node (by omega)
    rw [edgeSumOver_append]
    omega
  have hpre : PInv g source dest m.node m.dist (S ++ [m.node]) { s with heap := rest } := by
    refine ⟨⟨hS'nodup, hS'sub, hinv.dsrc, hinv.distLe, hinv.realize, ?_, hinv.prevSrc,
        hinv.prevKeys, ?_, hinv.prevNodup, ?_⟩, by simp, hmU, hdu, hdub, hsumle,
        ?_, ?_, ?_, ?_, ?_, ?_, ?_⟩
    -- closedOpt
    · intro w hw
      rcases List.mem_append.mp hw with hw | hw
      · exact hinv.closedOpt w hw
      · rw [List.mem_singleton.mp hw]
        show s.dist m.node < UMAX ∧ IsLeastDist g source m.node (s.dist m.node)
        rw [hdu]
        exact ⟨hmU, hleast⟩
    -- prevStep
    · intro w p hlook hwsrc
      obtain ⟨hpS, hedge, hidx⟩ := hinv.prevStep w p hlook hwsrc
      refine ⟨List.mem_append_left _ hpS, hedge, ?_⟩
      intro hwS'
      rcases List.mem_append.mp hwS' with hwS | hwS
      · rw [List.indexOf_append_of_mem hpS, List.indexOf_append_of_mem hwS]
        exact hidx hwS
      · rw [List.mem_singleton.mp hwS]
        rw [List.indexOf_append_of_mem hpS, indexOf_concat_self S m.node huS]
        exact List.indexOf_lt_length.mpr hpS
    -- distFin
    · intro v hv
      have hv2 : s.dist v < UMAX := hv
      have h1 := hinv.distFin v hv2
      show s.dist v ≤ edgeSumOver g (S ++ [m.node])
      rw [edgeSumOver_append]
      omega
    -- heapBound
    · intro st hst
      exact hinv.heapBound st (hrestSub st hst)
    -- heapCover
    · intro w hwS hwlt
      have hwS1 : w ∉ S := fun hc => hwS (List.mem_append_left _ hc)
      have hwu : w ≠ m.node := fun hc => hwS (by rw [hc]; simp)
      have hold := hinv.heapCover w hwS1 hwlt
      have hne : (⟨w, s.dist w⟩ : St) ≠ m := by
        intro hc
        exact hwu (congrArg St.node hc)
      show (⟨w, s.dist w⟩ : St) ∈ rest
      rw [hrest]
      exact (List.mem_erase_of_ne hne).mpr hold
    -- heapVals
    · show rest.Pairwise _
      rw [hrest]
      exact hinv.heapVals.sublist (List.erase_sublist m s.heap)
    -- heapClosed
    · intro st hst hstS
      rcases List.mem_append.mp hstS with hstS | hstS
      · exact hinv.heapClosed st (hrestSub st hst) hstS
      · have hstu : st.node = m.node := List.mem_singleton.mp hstS
        have h2 := hmin st (hrestSub st hst)
        rw [stLtb_eq_false_iff] at h2
        rw [hstu, hdu]
        rcases Nat.lt_or_ge m.dist st.dist with h3 | h3
        · exact h3
        · exfalso
          have h4 : st.dist = m.dist := by omega
          have h5 : st = m := by
            have : st = ⟨st.node, st.dist⟩ := rfl
            rw [this, hstu, h4]
          rw [h5] at hst
          exact hmnotrest hst
    -- heapSource
    · rcases hinv.heapSource with h | h
      · exact Or.inl (List.mem_append_left _ h)
      · by_cases hms : m = ⟨source, 0⟩
        · refine Or.inl (List.mem_append_right _ ?_)
          rw [show source = m.node from by rw [hms]]
          simp
        · refine Or.inr ?_
          show _ ∈ rest
          rw [hrest]
          exact (List.mem_erase_of_ne (fun hc => hms hc.symm)).mpr h
    -- closedRelaxedOld
    · intro w hw hwu e' he'
      rcases List.mem_append.mp hw with hw | hw
      · exact hinv.closedRelaxed w hw e' he'
      · exact absurd (List.mem_singleton.mp hw) hwu
    -- destNotS
    · intro hc
      rcases List.mem_append.mp hc with hc | hc
      · exact hinv.destNotS hc
      · exact hnd (List.mem_singleton.mp hc).symm
  obtain ⟨hfinal, hreldone, hmono, hlen⟩ :=
    relaxFold_pinv g source dest m.node m.dist (S ++ [m.node]) hwf (g.adjacency m.node)
      (fun e' he' => he') { s with heap := rest } hpre
  constructor
  · refine ⟨hfinal.toBInv, hfinal.heapBound, hfinal.heapCover, hfinal.heapVals,
      hfinal.heapClosed, hfinal.heapSource, ?_, hfinal.destNotS⟩
    intro w hw e' he'
    rcases List.mem_append.mp hw with hwS | hwu
    · have hwu : w ≠ m.node := fun hc => huS (hc ▸ hwS)
      exact hfinal.closedRelaxedOld w (List.mem_append_left _ hwS) hwu e' he'
    · have hweq : w = m.node := List.mem_singleton.mp hwu
      subst hweq
      have h1 := hreldone e' he'
      have h2 : (processNode g m.node m.dist { s with heap := rest }) =
          List.foldl (relaxEdge g m.node m.dist) { s with heap := rest }
            (g.adjacency m.node) := rfl
      rw [h2, hfinal.distU]
      exact h1
  · have hrestlen : rest.length + 1 = s.heap.length := by
      rw [hrest, List.length_erase_of_mem hm]
      have := List.length_pos_of_mem hm
      omega
    have hsum := sum_filter_close g S m.node hwf.1 hmnodes huS
    show _ + _ < _ + _
    have hlen2 : (processNode g m.node m.dist { s with heap := rest }).heap.length ≤
        rest.length + (g.adjacency m.node).length := hlen
    omega

/-- The loop invariant carries to the loop's result: either the heap ran dry
with the invariant intact, or dest was popped and its label is the exact
shortest distance. -/
theorem loop_spec (g : Graph) (source dest : Nat) (hwf : WF g)
    (hbound : edgeLenSum g ≤ UMAX) :
    ∀ (fuel : Nat) (S : List Nat) (s : DState), DInv g source dest S s → phi g S s < fuel →
      ∃ S', BInv g source S' (dijkstraLoop g dest fuel s) ∧
        ((DInv g source dest S' (dijkstraLoop g dest fuel s) ∧
            (dijkstraLoop g dest fuel s).heap = []) ∨
          ((dijkstraLoop g dest fuel s).dist dest < UMAX ∧
            IsLeastDist g source dest ((dijkstraLoop g dest fuel s).dist dest))) := by
  intro fuel
  induction fuel with
  | zero =>
    intro S s _ hphi
    exact absurd hphi (Nat.not_lt_zero _)
  | succ n ih =>
    intro S s hinv hphi
    cases hpop : popMax s.heap with
    | none =>
      have hheap : s.heap = [] := (popMax_none s.heap).mp hpop
      have hstep : dijkstraLoop g dest (n + 1) s = s := by
        simp only [dijkstraLoop, hpop]
      rw [hstep]
      exact ⟨S, hinv.toBInv, Or.inl ⟨hinv, hheap⟩⟩
    | some r =>
      obtain ⟨m, rest⟩ := r
      obtain ⟨hm, hrest, hmin⟩ := popMax_spec s.heap m rest hpop
      obtain ⟨hdm, hmU, hmnodes⟩ := hinv.heapBound m hm
      have hrestlen : rest.length + 1 = s.heap.length := by
        rw [hrest, List.length_erase_of_mem hm]
        have := List.length_pos_of_mem hm
        omega
      by_cases hdest : m.node = dest
      · have hstep : dijkstraLoop g dest (n + 1) s = { s with heap := rest } := by
          simp only [dijkstraLoop, hpop, hdest, if_true]
        have hdd : s.dist dest ≤ m.dist := by rw [← hdest]; exact hdm
        have hddU : s.dist dest < UMAX := by omega
        have hleast : IsLeastDist g source dest (s.dist dest) := by
          constructor
          · exact hinv.realize dest hddU
          · intro d' l' hw
            by_cases hcase : d' < m.dist
            · exact cut_lemma g source dest S s hinv m rest hpop dest d' l' hw hcase
            · omega
        rw [hstep]
        refine ⟨S, ?_, Or.inr ⟨hddU, hleast⟩⟩
        exact ⟨hinv.snodup, hinv.sMem, hinv.dsrc, hinv.distLe, hinv.realize, hinv.closedOpt,
          hinv.prevSrc, hinv.prevKeys, hinv.prevStep, hinv.prevNodup, hinv.distFin⟩
      · by_cases hstale : s.dist m.node < m.dist
        · have hstep : dijkstraLoop g dest (n + 1) s =
              dijkstraLoop g dest n { s with heap := rest } := by
            simp only [dijkstraLoop, hpop, hdest, hstale, if_true, if_false]
          have hinv1 : DInv g source dest S { s with heap := rest } := by
            refine ⟨⟨hinv.snodup, hinv.sMem, hinv.dsrc, hinv.distLe, hinv.realize,
              hinv.closedOpt, hinv.prevSrc, hinv.prevKeys, hinv.prevStep, hinv.prevNodup,
              hinv.distFin⟩,
              ?_, ?_, ?_, ?_, ?_, ?_, hinv.destNotS⟩
            · intro st hst
              refine hinv.heapBound st ?_
              rw [hrest] at hst
              exact List.mem_of_mem_erase hst
            · intro w hwS hwlt
              have hold := hinv.heapCover w hwS hwlt
              have hne : (⟨w, s.dist w⟩ : St) ≠ m := by
                intro hc
                have h1 : w = m.node := congrArg St.node hc
                have h2 : s.dist w = m.dist := congrArg St.dist hc
                rw [h1] at h2
                omega
              show _ ∈ rest
              rw [hrest]
              exact (List.mem_erase_of_ne hne).mpr hold
            · show rest.Pairwise _
              rw [hrest]
              exact hinv.heapVals.sublist (List.erase_sublist m s.heap)
            · intro st hst hstS
              refine hinv.heapClosed st ?_ hstS
              rw [hrest] at hst
              exact List.mem_of_mem_erase hst
            · rcases hinv.heapSource with h | h
              · exact Or.inl h
              · refine Or.inr ?_
                have hne : (⟨source, 0⟩ : St) ≠ m := by
                  intro hc
                  have h1 : source = m.node := congrArg St.node hc
                  have h2 : (0 : Nat) = m.dist := congrArg St.dist hc
                  rw [← h1] at hstale
                  rw [hinv.dsrc] at hstale
                  omega
                show _ ∈ rest
                rw [hrest]
                exact (List.mem_erase_of_ne hne).mpr h
            · exact hinv.closedRelaxed
          have hphi1 : phi g S { s with heap := rest } < n := by
            have h1 : phi g S { s with heap := rest } =
                ((g.nodes.filter (fun n => n ∉ S)).map
                  (fun n => (g.adjacency n).length)).sum + rest.length := rfl
            have h2 : phi g S s =
                ((g.nodes.filter (fun n => n ∉ S)).map
                  (fun n => (g.adjacency n).length)).sum + s.heap.length := rfl
            rw [h2] at hphi
            rw [h1]
            omega
          rw [hstep]
          exact ih S { s with heap := rest } hinv1 hphi1
        · have hstep : dijkstraLoop g dest (n + 1) s =
              dijkstraLoop g dest n
                (processNode g m.node m.dist { s with heap := rest }) := by
            simp only [dijkstraLoop, hpop, hdest, hstale, if_true, if_false]
          obtain ⟨hinv2, hphi2⟩ := close_node g source dest S s hwf hbound hinv m rest hpop
            hstale hdest
          rw [hstep]
          exact ih _ _ hinv2 (by omega)


/-- find_route unfolded onto the named initial state. -/
theorem find_route_eq (g : Graph) (source dest : Nat) :
    find_route g source dest =
      backtrack (dijkstraLoop g dest (dijkstraFuel g) (initState source)).prev source
        ((dijkstraLoop g dest (dijkstraFuel g) (initState source)).prev.length + 1) dest := rfl

/-- The loop invariant holds on entry. -/
theorem init_dinv (g : Graph) (source dest : Nat) (hs : source ∈ g.nodes) :
    DInv g source dest [] (initState source) := by
  have hUpos : (0 : Nat) < UMAX := by decide
  refine ⟨⟨?_, ?_, ?_, ?_, ?_, ?_, ?_, ?_, ?_, ?_, ?_⟩, ?_, ?_, ?_, ?_, ?_, ?_, ?_⟩
  -- snodup
  · simp
  -- sMem
  · intro u hu; simp at hu
  -- dsrc
  · show (if source = source then 0 else UMAX) = 0
    simp
  -- distLe
  · intro v
    show (if v = source then 0 else UMAX) ≤ UMAX
    by_cases h : v = source <;> simp [h]
  -- realize
  · intro v hv
    show ∃ l, ReachesL g source v ((initState source).dist v) l
    by_cases h : v = source
    · refine ⟨[source], ?_⟩
      have h2 : (initState source).dist v = 0 := by
        show (if v = source then 0 else UMAX) = 0
        rw [if_pos h]
      rw [h2, h]
      exact ReachesL.refl
    · exfalso
      have h2 : (initState source).dist v = UMAX := by
        show (if v = source then 0 else UMAX) = UMAX
        rw [if_neg h]
      rw [h2] at hv
      omega
  -- closedOpt
  · intro u hu; simp at hu
  -- prevSrc
  · show (if source = source then some source else none) = some source
    rw [if_pos rfl]
  -- prevKeys
  · intro v hv
    have h1 : alookup (initState source).prev v = none := by
      show (if source = v then some source else none) = none
      rw [if_neg (fun hc => hv hc.symm)]
    have h2 : (initState source).dist v = UMAX := by
      show (if v = source then 0 else UMAX) = UMAX
      rw [if_neg hv]
    rw [h1, h2]
    simp
  -- prevStep
  · intro v u hlook hvs
    exfalso
    have h1 : alookup (initState source).prev v = none := by
      show (if source = v then some source else none) = none
      rw [if_neg (fun hc => hvs hc.symm)]
    rw [h1] at hlook
    exact Option.noConfusion hlook
  -- prevNodup
  · show ([(source, source)].map Prod.fst).Nodup
    simp
  -- distFin
  · intro v hv
    by_cases h : v = source
    · have h2 : (initState source).dist v = 0 := by
        show (if v = source then 0 else UMAX) = 0
        rw [if_pos h]
      rw [h2]
      exact Nat.zero_le _
    · exfalso
      have h2 : (initState source).dist v = UMAX := by
        show (if v = source then 0 else UMAX) = UMAX
        rw [if_neg h]
      rw [h2] at hv
      omega
  -- heapBound
  · intro st hst
    have h1 : st = ⟨source, 0⟩ := List.mem_singleton.mp hst
    subst h1
    refine ⟨?_, hUpos, hs⟩
    show (if source = source then 0 else UMAX) ≤ 0
    simp
  -- heapCover
  · intro v _ hvlt
    by_cases h : v = source
    · have h2 : (initState source).dist v = 0 := by
        show (if v = source then 0 else UMAX) = 0
        rw [if_pos h]
      rw [h2, h]
      exact List.mem_singleton.mpr rfl
    · exfalso
      have h2 : (initState source).dist v = UMAX := by
        show (if v = source then 0 else UMAX) = UMAX
        rw [if_neg h]
      rw [h2] at hvlt
      omega
  -- heapVals
  · show ([⟨source, 0⟩] : List St).Pairwise _
    simp
  -- heapClosed
  · intro st _ hstS
    simp at hstS
  -- heapSource
  · exact Or.inr (List.mem_singleton.mpr rfl)
  -- closedRelaxed
  · intro u hu; simp at hu
  -- destNotS
  · simp

/-- The fuel budgeted by find_route exceeds the initial measure. -/
theorem phi_init (g : Graph) (source : Nat) : phi g [] (initState source) < dijkstraFuel g := by
  have h1 : g.nodes.filter (fun n => n ∉ ([] : List Nat)) = g.nodes := by
    apply List.filter_eq_self.mpr
    intro a _
    simp
  have h2 : phi g [] (initState source) =
      ((g.nodes.filter (fun n => n ∉ ([] : List Nat))).map
        (fun n => (g.adjacency n).length)).sum + 1 := rfl
  have h3 : dijkstraFuel g = (g.nodes.map (fun n => (g.adjacency n).length)).sum + 2 := rfl
  rw [h2, h1, h3]
  omega

/-- With the heap empty, every node reachable within the distance cap is
closed, with a correct label. -/
theorem reach_closed (g : Graph) (source dest : Nat) (S : List Nat) (s : DState)
    (hinv : DInv g source dest S s) (hheap : s.heap = []) :
    ∀ v d l, ReachesL g source v d l → d < UMAX → v ∈ S ∧ s.dist v ≤ d := by
  intro v d l hw
  induction hw with
  | refl =>
    intro _
    have hsrc : source ∈ S := by
      rcases hinv.heapSource with h | h
      · exact h
      · rw [hheap] at h; simp at h
    refine ⟨hsrc, ?_⟩
    rw [hinv.dsrc]
  | snoc hw e he ih =>
    rename_i u d'' l''
    intro hlt
    obtain ⟨huS, hdu⟩ := ih (by omega)
    have h1 := hinv.closedRelaxed u huS e he
    have h2 : s.dist (otherEnd g u e) ≤ d'' + (g.edges e).length := by omega
    have h3 : s.dist (otherEnd g u e) < UMAX := by omega
    refine ⟨?_, h2⟩
    by_contra hv
    have := hinv.heapCover _ hv h3
    rw [hheap] at this
    simp at this

/-- The prev walk from a closed node is a source-rooted walk realizing the
node's label; induction on the closing order. -/
theorem backtrack_closed (g : Graph) (source : Nat) (S : List Nat) (s : DState)
    (binv : BInv g source S s) :
    ∀ (n : Nat), ∀ u ∈ S, S.indexOf u < n → ∀ fuel, S.indexOf u + 1 ≤ fuel →
      ReachesL g source u (s.dist u) (backtrack s.prev source fuel u).reverse := by
  intro n
  induction n with
  | zero =>
    intro u _ h
    exact absurd h (Nat.not_lt_zero _)
  | succ n ih =>
    intro u huS hun fuel hfuel
    cases fuel with
    | zero => omega
    | succ f =>
      by_cases hus : u = source
      · have hstep : backtrack s.prev source (f + 1) u = [u] := by
          simp [backtrack, hus, binv.prevSrc]
        rw [hstep, hus]
        rw [List.reverse_singleton, binv.dsrc]
        exact ReachesL.refl
      · obtain ⟨hulte, hopt⟩ := binv.closedOpt u huS
        have hsome : (alookup s.prev u).isSome := (binv.prevKeys u hus).mpr hulte
        obtain ⟨p, hp⟩ := Option.isSome_iff_exists.mp hsome
        obtain ⟨hpS, ⟨e, he, hoe, hdist⟩, hidx⟩ := binv.prevStep u p hp hus
        have hidxu := hidx huS
        have hstep : backtrack s.prev source (f + 1) u =
            u :: backtrack s.prev source f p := by
          simp [backtrack, hp, hus]
        rw [hstep]
        have hrec := ih p hpS (by omega) f (by omega)
        have hsnoc := hrec.snoc e he
        rw [hoe] at hsnoc
        rw [← hdist] at hsnoc
        rw [List.reverse_cons]
        exact hsnoc

/-- The prev walk from any node whose label is set (closed or still open)
realizes that label, within the fuel find_route allots. -/
theorem backtrack_from (g : Graph) (source : Nat) (S : List Nat) (s : DState)
    (binv : BInv g source S s) (v : Nat) (hvlt : s.dist v < UMAX) :
    ReachesL g source v (s.dist v)
      (backtrack s.prev source (s.prev.length + 1) v).reverse := by
  by_cases hvs : v = source
  · have hstep : backtrack s.prev source (s.prev.length + 1) v = [v] := by
      simp [backtrack, hvs, binv.prevSrc]
    rw [hstep, hvs]
    rw [List.reverse_singleton, binv.dsrc]
    exact ReachesL.refl
  · have hsome : (alookup s.prev v).isSome := (binv.prevKeys v hvs).mpr hvlt
    obtain ⟨p, hp⟩ := Option.isSome_iff_exists.mp hsome
    obtain ⟨hpS, ⟨e, he, hoe, hdist⟩, _⟩ := binv.prevStep v p hp hvs
    have hSsub : ∀ w ∈ S, w ∈ s.prev.map Prod.fst := by
      intro w hwS
      by_cases hws : w = source
      · subst hws
        by_contra hc
        have := (alookup_none_iff s.prev w).mpr hc
        rw [binv.prevSrc] at this
        exact Option.noConfusion this
      · obtain ⟨hwlt, _⟩ := binv.closedOpt w hwS
        have hws2 := (binv.prevKeys w hws).mpr hwlt
        by_contra hc
        have := (alookup_none_iff s.prev w).mpr hc
        rw [this] at hws2
        simp at hws2
    have hlen : S.length ≤ s.prev.length := by
      have hsp : List.Subperm S (s.prev.map Prod.fst) := binv.snodup.subperm hSsub
      have := hsp.length_le
      simpa using this
    have hidxp : S.indexOf p < S.length := List.indexOf_lt_length.mpr hpS
    have hstep : backtrack s.prev source (s.prev.length + 1) v =
        v :: backtrack s.prev source s.prev.length p := by
      simp [backtrack, hp, hvs]
    rw [hstep]
    have hrec := backtrack_closed g source S s binv (S.indexOf p + 1) p hpS (by omega)
      s.prev.length (by omega)
    have hsnoc := hrec.snoc e he
    rw [hoe] at hsnoc
    rw [← hdist] at hsnoc
    rw [List.reverse_cons]
    exact hsnoc

/-- Helper: a concrete 0-to-2 walk of gEx with total length 2. -/
theorem gEx_walk : ReachesL gEx 0 2 2 [0, 1, 2] := by
  have h0 : ReachesL gEx 0 0 0 [0] := ReachesL.refl
  have h1 : ReachesL gEx 0 1 1 [0, 1] := h0.snoc 0 (by decide)
  exact h1.snoc 1 (by decide)

/-- Helper: in gDis only nodes 0 and 1 are reachable from 0. -/
theorem gDis_reach : ∀ v d l, ReachesL gDis 0 v d l → v = 0 ∨ v = 1 := by
  intro v d l h
  induction h with
  | refl => exact Or.inl rfl
  | snoc hw e he ih =>
    rcases ih with h | h <;> rw [h] at he <;> simp [gDis] at he <;> rw [h, he] <;> decide

/-- Claim C1 (amended): on a graph whose total adjacency-listed edge length
fits in u32 (so no relaxation sum `cost + length as u32` can wrap in
release builds or panic in debug builds), for a source node with any walk
to dest of total length under u32::MAX, find_route returns the vertex list
of a minimum-total-length walk — but listed in REVERSE order, dest first
and source last; the claim's "first node is source, last node is dest"
holds of the reversal of the returned path, not of the returned path
itself (see the counterexample). -/
theorem c1_find_route_shortest_amended (g : Graph) (source dest : Nat) (hwf : WF g)
    (hbound : edgeLenSum g ≤ UMAX)
    (hs : source ∈ g.nodes) (d0 : Nat) (l0 : List Nat)
    (hr : ReachesL g source dest d0 l0) (hd0 : d0 < UMAX) :
    ∃ d, IsLeastDist g source dest d ∧
      ReachesL g source dest d (find_route g source dest).reverse ∧
      (find_route g source dest).head? = some dest ∧
      (find_route g source dest).getLast? = some source := by
  obtain ⟨S', hbinv, hdisj⟩ := loop_spec g source dest hwf hbound (dijkstraFuel g) []
    (initState source) (init_dinv g source dest hs) (phi_init g source)
  rcases hdisj with ⟨hdinv, hheap⟩ | ⟨hlt, hleast⟩
  · exfalso
    obtain ⟨hdS, _⟩ := reach_closed g source dest S'
      (dijkstraLoop g dest (dijkstraFuel g) (initState source)) hdinv hheap dest d0 l0 hr hd0
    exact hdinv.destNotS hdS
  · have hbt := backtrack_from g source S'
      (dijkstraLoop g dest (dijkstraFuel g) (initState source)) hbinv dest hlt
    rw [find_route_eq g source dest]
    refine ⟨_, hleast, hbt, ?_, ?_⟩
    · rw [← List.getLast?_reverse]
      exact reach_last hbt
    · rw [← List.head?_reverse]
      exact reach_head hbt

/-- Witness for C1 on gEx: the edge-length budget fits in u32, 0 and 2 are
connected (via the explicit walk 0-1-2 of length 2), and find_route's
output reversed is a shortest walk with the endpoint properties. -/
theorem c1_find_route_shortest_amended_witness :
    (WF gEx ∧ edgeLenSum gEx ≤ UMAX ∧ (0 : Nat) ∈ gEx.nodes ∧
        ReachesL gEx 0 2 2 [0, 1, 2] ∧ 2 < UMAX) ∧
      (∃ d, IsLeastDist gEx 0 2 d ∧
        ReachesL gEx 0 2 d (find_route gEx 0 2).reverse ∧
        (find_route gEx 0 2).head? = some 2 ∧
        (find_route gEx 0 2).getLast? = some 0) :=
  ⟨⟨by unfold WF; decide, by decide, by decide, gEx_walk, by decide⟩,
    c1_find_route_shortest_amended gEx 0 2 (by unfold WF; decide) (by decide) (by decide)
      2 [0, 1, 2] gEx_walk (by decide)⟩

/-- Claim C1 counterexample: on gEx, nodes 0 and 2 are connected, yet
find_route 0 2 returns [2, 1, 0]: its first node is dest and its last node
is source, refuting "first node is source and last node is dest" for the
returned order. -/
theorem c1_counterexample :
    ReachesL gEx 0 2 2 [0, 1, 2] ∧ find_route gEx 0 2 = [2, 1, 0] ∧
      (find_route gEx 0 2).head? ≠ some 0 ∧ (find_route gEx 0 2).getLast? ≠ some 2 :=
  ⟨gEx_walk, by decide, by decide, by decide⟩

/-! The light reachability invariant is preserved by the whole router,
independently of what values the wrapped u32 sums take — so the
unreachable-dest behavior below needs no overflow hypothesis. -/

theorem relaxEdge_linv (g : Graph) (source u du : Nat) (s : DState) (hl : LInv g source s)
    (hu : ∃ d l, ReachesL g source u d l) (e : Nat) (he : e ∈ g.adjacency u) :
    LInv g source (relaxEdge g u du s e) := by
  by_cases hlt : (du + (g.edges e).length) % 4294967296 < s.dist (otherEnd g u e)
  · have hs' : relaxEdge g u du s e =
        { dist := fun x => if x = otherEnd g u e
            then (du + (g.edges e).length) % 4294967296 else s.dist x
          prev := aset s.prev (otherEnd g u e) u
          heap := ⟨otherEnd g u e, (du + (g.edges e).length) % 4294967296⟩ :: s.heap } := by
      simp [relaxEdge, hlt]
    have hv : ∃ d l, ReachesL g source (otherEnd g u e) d l := by
      obtain ⟨d, l, hw⟩ := hu
      exact ⟨d + (g.edges e).length, l ++ [otherEnd g u e], hw.snoc e he⟩
    have hsv : source ≠ otherEnd g u e := by
      intro hc
      rw [← hc, hl.dsrcL] at hlt
      omega
    rw [hs']
    refine ⟨?_, ?_, ?_, ?_⟩
    · show (if source = otherEnd g u e then _ else s.dist source) = 0
      rw [if_neg hsv, hl.dsrcL]
    · show alookup (aset s.prev (otherEnd g u e) u) source = some source
      rw [alookup_aset_ne s.prev (otherEnd g u e) source u hsv, hl.prevSrcL]
    · intro w hw
      by_cases hwv : w = otherEnd g u e
      · rw [hwv]
        exact hv
      · rw [alookup_aset_ne _ _ _ _ hwv] at hw
        exact hl.prevReach w hw
    · intro st hst
      rcases List.mem_cons.mp hst with rfl | hst
      · exact hv
      · exact hl.heapReach st hst
  · have hs' : relaxEdge g u du s e = s := by
      simp [relaxEdge, hlt]
    rw [hs']
    exact hl

theorem relaxFold_linv (g : Graph) (source u du : Nat)
    (hu : ∃ d l, ReachesL g source u d l) :
    ∀ (todo : List Nat), (∀ e ∈ todo, e ∈ g.adjacency u) → ∀ s, LInv g source s →
      LInv g source (todo.foldl (relaxEdge g u du) s) := by
  intro todo
  induction todo with
  | nil => intro _ s hl; exact hl
  | cons e rest ih =>
    intro hmem s hl
    rw [List.foldl_cons]
    exact ih (fun e' he' => hmem e' (List.mem_cons_of_mem _ he')) _
      (relaxEdge_linv g source u du s hl hu e (hmem e (List.mem_cons_self _ _)))

theorem loop_linv (g : Graph) (source dest : Nat) :
    ∀ (fuel : Nat) (s : DState), LInv g source s →
      LInv g source (dijkstraLoop g dest fuel s) := by
  intro fuel
  induction fuel with
  | zero => intro s hl; exact hl
  | succ n ih =>
    intro s hl
    cases hpop : popMax s.heap with
    | none =>
      have hstep : dijkstraLoop g dest (n + 1) s = s := by
        simp only [dijkstraLoop, hpop]
      rw [hstep]
      exact hl
    | some r =>
      obtain ⟨m, rest⟩ := r
      obtain ⟨hm, hrest, _⟩ := popMax_spec s.heap m rest hpop
      have hl1 : LInv g source { s with heap := rest } := by
        refine ⟨hl.dsrcL, hl.prevSrcL, hl.prevReach, ?_⟩
        intro st hst
        refine hl.heapReach st ?_
        rw [hrest] at hst
        exact List.mem_of_mem_erase hst
      have hmreach := hl.heapReach m hm
      by_cases hdest : m.node = dest
      · have hstep : dijkstraLoop g dest (n + 1) s = { s with heap := rest } := by
          simp only [dijkstraLoop, hpop, hdest, if_true]
        rw [hstep]
        exact hl1
      · by_cases hstale : s.dist m.node < m.dist
        · have hstep : dijkstraLoop g dest (n + 1) s =
              dijkstraLoop g dest n { s with heap := rest } := by
            simp only [dijkstraLoop, hpop, hdest, hstale, if_true, if_false]
          rw [hstep]
          exact ih _ hl1
        · have hstep : dijkstraLoop g dest (n + 1) s =
              dijkstraLoop g dest n
                (processNode g m.node m.dist { s with heap := rest }) := by
            simp only [dijkstraLoop, hpop, hdest, hstale, if_true, if_false]
          rw [hstep]
          exact ih _ (relaxFold_linv g source m.node m.dist hmreach (g.adjacency m.node)
            (fun e' he' => he') _ hl1)

theorem init_linv (g : Graph) (source : Nat) : LInv g source (initState source) := by
  refine ⟨?_, ?_, ?_, ?_⟩
  · show (if source = source then 0 else UMAX) = 0
    rw [if_pos rfl]
  · show (if source = source then some source else none) = some source
    rw [if_pos rfl]
  · intro v hv
    by_cases h : v = source
    · exact ⟨0, [source], by rw [h]; exact ReachesL.refl⟩
    · exfalso
      have h1 : alookup (initState source).prev v = none := by
        show (if source = v then some source else none) = none
        rw [if_neg (fun hc => h hc.symm)]
      rw [h1] at hv
      simp at hv
  · intro st hst
    have h1 : st = ⟨source, 0⟩ := List.mem_singleton.mp hst
    rw [h1]
    exact ⟨0, [source], ReachesL.refl⟩

/-- Claim C6 (amended): when dest is unreachable from source, find_route
still terminates, but it returns the single-node path [dest]: the prev map
has no entry for dest, so the back-pointer walk stops immediately. The
returned path therefore DOES end (and begin) at dest, so a caller cannot
detect the failure by "the path not ending at dest"; the failure shows up
as the path being [dest] itself (not reaching back to source).  The proof
goes through the light reachability invariant, so it holds whatever values
the router's wrapped u32 sums take. -/
theorem c6_find_route_unreachable_amended (g : Graph) (source dest : Nat) (_hwf : WF g)
    (_hs : source ∈ g.nodes) (hunreach : ∀ d l, ¬ ReachesL g source dest d l) :
    find_route g source dest = [dest] := by
  have hlF := loop_linv g source dest (dijkstraFuel g) (initState source) (init_linv g source)
  have hlook : alookup (dijkstraLoop g dest (dijkstraFuel g) (initState source)).prev dest
      = none := by
    cases hcase : alookup (dijkstraLoop g dest (dijkstraFuel g) (initState source)).prev dest with
    | none => rfl
    | some p =>
      exfalso
      have hsome : (alookup (dijkstraLoop g dest (dijkstraFuel g)
          (initState source)).prev dest).isSome := by
        rw [hcase]
        rfl
      obtain ⟨d, l, hw⟩ := hlF.prevReach dest hsome
      exact hunreach d l hw
  rw [find_route_eq g source dest]
  simp [backtrack, hlook]

/-- Witness for C6 on gDis: node 2 is unreachable from 0 (the reachable set
is {0, 1}), and find_route 0 2 terminates returning [2]. -/
theorem c6_find_route_unreachable_amended_witness :
    (WF gDis ∧ (0 : Nat) ∈ gDis.nodes) ∧ find_route gDis 0 2 = [2] :=
  ⟨⟨by unfold WF; decide, by decide⟩,
    c6_find_route_unreachable_amended gDis 0 2 (by unfold WF; decide) (by decide)
      (fun d l hw => by have := gDis_reach 2 d l hw; omega)⟩

/-- Claim C6 counterexample: on gDis with unreachable dest 2 (the router's
final distance label for 2 is still the u32::MAX default), the returned
path is [2], which ends at dest — so "callers can detect routing failure by
the returned path not ending at dest" fails. -/
theorem c6_counterexample :
    find_route gDis 0 2 = [2] ∧ (find_route gDis 0 2).getLast? = some 2 ∧
      (dijkstraLoop gDis 2 (dijkstraFuel gDis) (initState 0)).dist 2 = UMAX := by
  decide

end Odbrs
